import Mathlib

/-!
# zkwalker: the traversal engine and its built-in policies

A shallow embedding of `zkwalker/zkwalker.go`, `zkwalker/zkclient.go` and of the
in-memory client and processors of `zkwalker/zkwalker_test.go`.

* Go `string` and `[]byte` values are Lean `String`s; `path.Clean` only looks at
  the bytes `/` and `.`, which never occur inside a multi-byte UTF-8 sequence.
  Lengths of paths are counted in characters.
* A Go `error` is `Option Err`: `none` is `nil`, `some e` is a non-nil error.
* The remote client is a state machine over an arbitrary state type `σ`; the
  processors may carry a state of their own, of type `τ`.
* A node processor is a finite interaction tree (`NodeProg`): the only way it can
  reach the client is the `znode` node, its `ZnodeGetter`.
* Every call site of `Walk` is instrumented with an `Event` that records the
  recursion depth of the frame that made the call.
* The recursion of `Walk` is bounded by a fuel (the recursion depth still
  allowed); `Outcome.timeout` is the result of a walk that needs more.
-/

namespace zkwalker

/-! ## `path.Join` and `path.Clean` of the Go standard library -/

/-- Loop of `path.Clean` that backtracks over a `..` element. The argument is the
output buffer reversed (last byte written first): `out.w--` drops its head `x`,
and the loop test `out.w > dotdot && out.index(out.w) != '/'` reads that same
byte `x`. -/
def unwind (dotdot : Nat) : List Char → List Char
  | [] => []
  | x :: rest => if rest.length > dotdot ∧ x ≠ '/' then unwind dotdot rest else rest

/-- Test `r+k == n || path[r+k] == '/'` of `path.Clean`, on the unread rest. -/
def atElemEnd : List Char → Bool
  | [] => true
  | c :: _ => c == '/'

/-- Main loop `for r < n` of `path.Clean`. `rest` is `path[r:]`, `out` is the
buffer `out` reversed (so `out.w = out.length`), and the fuel bounds the number of
iterations (each consumes at least one byte of `rest`). -/
def cleanLoop (rooted : Bool) : Nat → List Char → List Char → Nat → List Char
  | 0, _, out, _ => out
  | _ + 1, [], out, _ => out
  | fuel + 1, c :: rest, out, dotdot =>
    if c = '/' then
      -- empty path element
      cleanLoop rooted fuel rest out dotdot
    else if c = '.' ∧ atElemEnd rest then
      -- . element
      cleanLoop rooted fuel rest out dotdot
    else if c = '.' ∧ rest.head? = some '.' ∧ atElemEnd (rest.drop 1) then
      -- .. element: remove to last /
      if out.length > dotdot then
        cleanLoop rooted fuel (rest.drop 1) (unwind dotdot out) dotdot
      else if !rooted then
        let out1 := if out.length > 0 then '/' :: out else out
        let out2 := '.' :: '.' :: out1
        cleanLoop rooted fuel (rest.drop 1) out2 out2.length
      else
        cleanLoop rooted fuel (rest.drop 1) out dotdot
    else
      -- real path element: add slash if needed, then copy the element
      let out1 :=
        if (rooted ∧ out.length ≠ 1) ∨ (!rooted ∧ out.length ≠ 0) then '/' :: out else out
      let elem := (c :: rest).takeWhile (· ≠ '/')
      cleanLoop rooted fuel ((c :: rest).dropWhile (· ≠ '/')) (elem.reverse ++ out1) dotdot

/-- Go `path.Clean` on the bytes of a path. -/
def cleanChars (path : List Char) : List Char :=
  if path = [] then ['.']
  else
    let rooted := path.head? = some '/'
    let out :=
      if rooted then cleanLoop true path.length (path.drop 1) ['/'] 1
      else cleanLoop false path.length path [] 0
    -- Turn empty string into "."
    if out.length = 0 then ['.'] else out.reverse

/-- Go `path.Clean`. -/
def Clean (path : String) : String := String.mk (cleanChars path.data)

/-- The buffer `path.Join` builds: the elements separated by `/`, empty elements
skipped as long as the buffer is empty. -/
def joinBuf : List Char → List String → List Char
  | buf, [] => buf
  | buf, e :: rest =>
    if buf.length > 0 ∨ e ≠ "" then
      joinBuf ((if buf.length > 0 then buf ++ ['/'] else buf) ++ e.data) rest
    else joinBuf buf rest

/-- Go `path.Join(elem...)`. -/
def Join (elem : List String) : String :=
  if (elem.map String.length).sum = 0 then "" else Clean (String.mk (joinBuf [] elem))

/-- A single path element: not empty, without `/`, and neither `.` nor `..`
(what zookeeper accepts as the name of a znode). -/
def validElem (e : List Char) : Prop :=
  e ≠ [] ∧ '/' ∉ e ∧ e ≠ ['.'] ∧ e ≠ ['.', '.']

instance (e : List Char) : Decidable (validElem e) := by
  unfold validElem; infer_instance

/-- A name that is a single path element. -/
def validName (c : String) : Prop := validElem c.data

instance (c : String) : Decidable (validName c) := by
  unfold validName; infer_instance

/-- Bytes of the absolute path with the elements `segs`: `/` when there is none,
otherwise each element preceded by a `/`. -/
def rootedChars : List (List Char) → List Char
  | [] => ['/']
  | e :: segs => ((e :: segs).map ('/' :: ·)).flatten

/-- The absolute path with the elements `segs`, as in `/foo/bar`. -/
def rootedPath (segs : List String) : String :=
  String.mk (rootedChars (segs.map String.data))

/-- The recursion chain of `Walk` from `start` down through the names `names`:
the path of each frame on it, the start path first. -/
def descent (start : String) : List String → List String
  | [] => [start]
  | c :: names => start :: descent (Join [start, c]) names

/-! ## Data model -/

/-- A non-nil Go `error`, identified by its message. -/
abbrev Err := String

/-- Stand-in for `*zk.Stat` of the zookeeper library: this package only passes it
along. `none` is the nil pointer. -/
abbrev Stat := Option Nat

/-- What `Get` returns: `([]byte, *zk.Stat, error)`. -/
abbrev GetResult := String × Stat × Option Err

/-- What `Children` returns: `([]string, *zk.Stat, error)`. -/
abbrev LsResult := List String × Stat × Option Err

/-- The part of the `zkClient` interface that `Walk` uses, over a client state `σ`. -/
structure zkClient (σ : Type) where
  Get : String → σ → GetResult × σ
  Children : String → σ → LsResult × σ

/-- `ZkWalker` struct. -/
structure ZkWalker (σ : Type) where
  conn : zkClient σ
  auth : String

/-- One run of a node processor: it returns, prints a line, logs a line, or calls
its `ZnodeGetter` and goes on with what the getter returned. -/
inductive NodeProg (τ : Type) where
  | ret (skipChildren : Bool) (err : Option Err) (s : τ)
  | znode (k : GetResult → NodeProg τ)
  | printf (line : String) (k : NodeProg τ)
  | logPrintf (line : String) (k : NodeProg τ)

/-- `ZnodeProcessor`: `func(path string, znode ZnodeGetter) (skipChildren bool, err error)`. -/
abbrev ZnodeProcessor (τ : Type) := String → τ → NodeProg τ

/-- What a children processor returns, with the lines it logged. -/
structure ChildrenRet (τ : Type) where
  logged : List String
  children : List String
  err : Option Err
  s : τ

/-- `ChildrenProcessor`:
`func(path string, lsChildren []string, lsStat *zk.Stat, lsErr error) (children []string, err error)`. -/
abbrev ChildrenProcessor (τ : Type) :=
  String → List String → Stat → Option Err → τ → ChildrenRet τ

/-- The calls a walk makes. -/
inductive Call where
  /-- `Walk(zpath, ...)` was entered -/
  | walk (zpath : String)
  /-- `znodeFn(zpath, getter)` was called -/
  | znodeFn (zpath : String)
  /-- the processor called the getter bound to `zpath` -/
  | getter (zpath : String)
  /-- `z.conn.Get(zpath)` was called -/
  | get (zpath : String)
  /-- a line on standard output -/
  | printf (line : String)
  /-- a line in the log -/
  | logPrintf (line : String)
  /-- `znodeFn(zpath, getter)` returned -/
  | znodeRet (zpath : String) (skipChildren : Bool) (err : Option Err)
  /-- `z.conn.Children(zpath)` was called -/
  | ls (zpath : String)
  /-- `childrenFn(zpath, lsChildren, lsStat, lsErr)` was called -/
  | childrenFn (zpath : String) (lsChildren : List String) (lsStat : Stat) (lsErr : Option Err)
  /-- `childrenFn(zpath, ...)` returned -/
  | childrenRet (zpath : String) (children : List String) (err : Option Err)
  deriving DecidableEq, Repr

/-- A call, with the recursion depth of the `Walk` frame that made it. -/
structure Event where
  depth : Nat
  call : Call
  deriving DecidableEq, Repr

/-- How a walk ends: it returns an error value, or the fuel runs out first. -/
inductive Outcome where
  | timeout
  | returned (err : Option Err)
  deriving DecidableEq, Repr

/-- Result of running a piece of the walk: outcome, the events in order, and the
states it leaves. -/
structure Run (σ τ : Type) where
  outcome : Outcome
  events : List Event
  conn : σ
  pol : τ

/-- Result of one node processor call. -/
structure NodeRun (σ τ : Type) where
  skipChildren : Bool
  err : Option Err
  events : List Event
  conn : σ
  pol : τ

/-! ## The traversal engine -/

/-- Runs `znodeFn(zpath, func() { return z.conn.Get(zpath) })`: each call of the
getter is one `z.conn.Get(zpath)`. -/
def runZnodeFn {σ τ : Type} (z : ZkWalker σ) (depth : Nat) (zpath : String) :
    NodeProg τ → σ → NodeRun σ τ
  | .ret skip err s, c => ⟨skip, err, [], c, s⟩
  | .znode k, c =>
    let r := z.conn.Get zpath c
    let n := runZnodeFn z depth zpath (k r.1) r.2
    { n with events := ⟨depth, .getter zpath⟩ :: ⟨depth, .get zpath⟩ :: n.events }
  | .printf line k, c =>
    let n := runZnodeFn z depth zpath k c
    { n with events := ⟨depth, .printf line⟩ :: n.events }
  | .logPrintf line k, c =>
    let n := runZnodeFn z depth zpath k c
    { n with events := ⟨depth, .logPrintf line⟩ :: n.events }

/-- The loop `for _, c := range children` of `Walk`, `walk` being the recursive
call: the first child walk that does not return nil ends the loop. -/
def walkChildren {σ τ : Type} (walk : String → σ → τ → Run σ τ) (zpath : String) :
    List String → σ → τ → Run σ τ
  | [], c, s => ⟨.returned none, [], c, s⟩
  | ch :: rest, c, s =>
    let r := walk (Join [zpath, ch]) c s
    match r.outcome with
    | .returned none =>
      let r2 := walkChildren walk zpath rest r.conn r.pol
      { r2 with events := r.events ++ r2.events }
    | _ => r

/-- Events of one frame up to the return of the node processor. -/
def nodeEvents {σ τ : Type} (depth : Nat) (zpath : String) (n : NodeRun σ τ) : List Event :=
  ⟨depth, .walk zpath⟩ :: ⟨depth, .znodeFn zpath⟩ ::
    (n.events ++ [⟨depth, .znodeRet zpath n.skipChildren n.err⟩])

/-- Events of one frame from the listing to the return of the children processor. -/
def listEvents {τ : Type} (depth : Nat) (zpath : String) (l : LsResult) (cr : ChildrenRet τ) :
    List Event :=
  ⟨depth, .ls zpath⟩ :: ⟨depth, .childrenFn zpath l.1 l.2.1 l.2.2⟩ ::
    (cr.logged.map (fun line => ⟨depth, .logPrintf line⟩) ++
      [⟨depth, .childrenRet zpath cr.children cr.err⟩])

/-- `ZkWalker.Walk`, with the recursion depth still allowed (`fuel`) and the depth
of this frame. -/
def Walk {σ τ : Type} (z : ZkWalker σ) (znodeFn : ZnodeProcessor τ)
    (childrenFn : ChildrenProcessor τ) : Nat → Nat → String → σ → τ → Run σ τ
  | 0, _, _, c, s => ⟨.timeout, [], c, s⟩
  | fuel + 1, depth, zpath, c, s =>
    let n := runZnodeFn z depth zpath (znodeFn zpath s) c
    match n.err with
    | some e => ⟨.returned (some e), nodeEvents depth zpath n, n.conn, n.pol⟩
    | none =>
      if n.skipChildren = true then ⟨.returned none, nodeEvents depth zpath n, n.conn, n.pol⟩
      else
        let l := z.conn.Children zpath n.conn
        let cr := childrenFn zpath l.1.1 l.1.2.1 l.1.2.2 n.pol
        match cr.err with
        | some e =>
          ⟨.returned (some e), nodeEvents depth zpath n ++ listEvents depth zpath l.1 cr, l.2, cr.s⟩
        | none =>
          let r := walkChildren (Walk z znodeFn childrenFn fuel (depth + 1)) zpath
            cr.children l.2 cr.s
          { r with events := nodeEvents depth zpath n ++ listEvents depth zpath l.1 cr ++ r.events }

/-- The node processor call of the frame `Walk(zpath, ...)` entered in the client
state `c` and processor state `s`. -/
def callZnodeFn {σ τ : Type} (z : ZkWalker σ) (znodeFn : ZnodeProcessor τ) (depth : Nat)
    (zpath : String) (c : σ) (s : τ) : NodeRun σ τ :=
  runZnodeFn z depth zpath (znodeFn zpath s) c

/-- The listing `z.conn.Children(zpath)` of that frame: it follows the node
processor call. -/
def callChildren {σ τ : Type} (z : ZkWalker σ) (znodeFn : ZnodeProcessor τ) (depth : Nat)
    (zpath : String) (c : σ) (s : τ) : LsResult × σ :=
  z.conn.Children zpath (callZnodeFn z znodeFn depth zpath c s).conn

/-- The children processor call of that frame: it is handed what the listing
returned. -/
def callChildrenFn {σ τ : Type} (z : ZkWalker σ) (znodeFn : ZnodeProcessor τ)
    (childrenFn : ChildrenProcessor τ) (depth : Nat) (zpath : String) (c : σ) (s : τ) :
    ChildrenRet τ :=
  childrenFn zpath (callChildren z znodeFn depth zpath c s).1.1
    (callChildren z znodeFn depth zpath c s).1.2.1
    (callChildren z znodeFn depth zpath c s).1.2.2
    (callZnodeFn z znodeFn depth zpath c s).pol

/-- The loop over the selected children of that frame. -/
def callWalkChildren {σ τ : Type} (z : ZkWalker σ) (znodeFn : ZnodeProcessor τ)
    (childrenFn : ChildrenProcessor τ) (fuel depth : Nat) (zpath : String) (c : σ) (s : τ) :
    Run σ τ :=
  walkChildren (Walk z znodeFn childrenFn fuel (depth + 1)) zpath
    (callChildrenFn z znodeFn childrenFn depth zpath c s).children
    (callChildren z znodeFn depth zpath c s).2
    (callChildrenFn z znodeFn childrenFn depth zpath c s).s

/-! ## Built-in policies -/

/-- `PrintZnodePath`. -/
def PrintZnodePath {τ : Type} : ZnodeProcessor τ := fun path s =>
  .printf (path ++ "\n") (.ret false none s)

/-- `PrintZnodePathAndContent`. -/
def PrintZnodePathAndContent {τ : Type} : ZnodeProcessor τ := fun path s =>
  .printf (path ++ "\n") (.znode fun r =>
    match r.2.2 with
    | some err => .logPrintf ("Can't get " ++ path ++ ": " ++ err ++ "\n") (.ret true none s)
    | none =>
      if r.1.length > 0 then .printf ("\t" ++ r.1 ++ "\n") (.ret false none s)
      else .ret false none s)

/-- `AllChildren`. -/
def AllChildren {τ : Type} : ChildrenProcessor τ := fun path lsChildren _ lsErr s =>
  match lsErr with
  | some e => ⟨["Can't list children of " ++ path ++ ": " ++ e ++ "\n"], [], none, s⟩
  | none => ⟨[], lsChildren, none, s⟩

/-! ## The in-memory client and the processors of the test file -/

/-- `memZkClient`: the two maps as association lists (first entry wins), and the
two lists of visited paths. -/
structure memZkClient where
  znodes : List (String × String)
  children : List (String × List String)
  visitedGet : List String
  visitedLs : List String
  deriving DecidableEq, Repr

/-- `newMemZkClient`. -/
def newMemZkClient : memZkClient := ⟨[], [], [], []⟩

/-- `memZkClient.node`: sets both map entries of `path`. -/
def memZkClient.node (m : memZkClient) (path content : String) (children : List String) :
    memZkClient :=
  { m with znodes := (path, content) :: m.znodes, children := (path, children) :: m.children }

/-- `memZkClient.Get`. -/
def memZkClient.Get (path : String) (m : memZkClient) : GetResult × memZkClient :=
  let m1 := { m with visitedGet := m.visitedGet ++ [path] }
  match m.znodes.lookup path with
  | none => (("", none, some ("mem: non-existing znode " ++ path)), m1)
  | some content => ((content, none, none), m1)

/-- `memZkClient.Children`. -/
def memZkClient.Children (path : String) (m : memZkClient) : LsResult × memZkClient :=
  let m1 := { m with visitedLs := m.visitedLs ++ [path] }
  match m.children.lookup path with
  | none => (([], none, some ("mem: non-existing znode " ++ path)), m1)
  | some children => ((children, none, none), m1)

/-- The in-memory client behind the `zkClient` interface. -/
def memConn : zkClient memZkClient := ⟨memZkClient.Get, memZkClient.Children⟩

/-- `noopZnodeProcessor`. -/
def noopZnodeProcessor {τ : Type} : ZnodeProcessor τ := fun _ s => .ret false none s

/-- `getZnodeProcessor`. -/
def getZnodeProcessor {τ : Type} : ZnodeProcessor τ := fun _ s =>
  .znode fun _ => .ret false none s

/-- `skipNonRootZnodeProcessor`. -/
def skipNonRootZnodeProcessor {τ : Type} : ZnodeProcessor τ := fun path s =>
  .znode fun _ => if path ≠ "/" then .ret true none s else .ret false none s

/-- `noChildren`. -/
def noChildren {τ : Type} : ChildrenProcessor τ := fun _ _ _ _ s => ⟨[], [], none, s⟩

/-- Tree of the first test case. -/
def tree8 : memZkClient :=
  (((((((newMemZkClient.node "/" "" ["foo"]).node "/foo" "" ["bar", "baz"]).node
    "/foo/bar" "" ["aaa", "bbb"]).node "/foo/bar/aaa" "" []).node "/foo/bar/bbb" "" []).node
    "/foo/baz" "" ["xxx", "yyy"]).node "/foo/baz/xxx" "" []).node "/foo/baz/yyy" "" []

/-- Chain of the second, third and fourth test cases. -/
def chain4 : memZkClient :=
  (((newMemZkClient.node "/" "" ["foo"]).node "/foo" "" ["bar"]).node
    "/foo/bar" "" ["aaa"]).node "/foo/bar/aaa" "" []

/-- The walker of the test loop: `&ZkWalker{conn: tt.conn}`. -/
def memWalker : ZkWalker memZkClient := ⟨memConn, ""⟩

/-! ## Reading a trace -/

/-- Paths the node processor was called with, in order. -/
def nodePaths (evs : List Event) : List String :=
  evs.filterMap fun e => match e.call with | .znodeFn p => some p | _ => none

/-- Paths `z.conn.Children` was called with, in order. -/
def lsPaths (evs : List Event) : List String :=
  evs.filterMap fun e => match e.call with | .ls p => some p | _ => none

/-- Paths `z.conn.Get` was called with, in order. -/
def getPaths (evs : List Event) : List String :=
  evs.filterMap fun e => match e.call with | .get p => some p | _ => none

/-- Paths of the getters the node processor invoked, in order. -/
def getterPaths (evs : List Event) : List String :=
  evs.filterMap fun e => match e.call with | .getter p => some p | _ => none

/-- Paths `Walk` was entered with by frames of recursion depth `d`, in order. -/
def walkPathsAt (d : Nat) (evs : List Event) : List String :=
  evs.filterMap fun e => match e.call with
    | .walk p => if e.depth = d then some p else none
    | _ => none

/-- Paths `Walk` was entered with, at any depth, in order. -/
def walkPaths (evs : List Event) : List String :=
  evs.filterMap fun e => match e.call with | .walk p => some p | _ => none

/-- Paths the children processor was called with, in order. -/
def childrenFnPaths (evs : List Event) : List String :=
  evs.filterMap fun e => match e.call with | .childrenFn p _ _ _ => some p | _ => none

/-- The children processor calls, with their arguments, in order. -/
def childrenFnCalls (evs : List Event) : List Call :=
  evs.filterMap fun e => match e.call with
    | .childrenFn p names st err => some (.childrenFn p names st err)
    | _ => none

/-- The getter invocations and the `Get` calls, in order. -/
def getCalls (evs : List Event) : List Call :=
  evs.filterMap fun e => match e.call with
    | .getter p => some (.getter p)
    | .get p => some (.get p)
    | _ => none

/-- Events of the frames of recursion depth `d`. -/
def eventsAt (d : Nat) (evs : List Event) : List Event :=
  evs.filter fun e => e.depth = d

/-- The error of a failing processor return; `none` for every other event. -/
def failure (e : Event) : Option Err :=
  match e.call with
  | .znodeRet _ _ err => err
  | .childrenRet _ _ err => err
  | _ => none

/-! ## Finite trees and the clients that serve them -/

/-- A finite tree of znodes: a node is the list of its children, each under its
name, in listing order. -/
inductive Tree where
  | node (children : List (String × Tree))

mutual
/-- Pre-order depth-first listing of the tree rooted at the path `p`: the node,
then the subtree of each child from left to right, the path of a child being
`path.Join(parent, name)`. -/
def preorder (p : String) : Tree → List String
  | .node cs => p :: preorderAll p cs
/-- Pre-order listing of the subtrees of the children of `p`, left to right. -/
def preorderAll (p : String) : List (String × Tree) → List String
  | [] => []
  | (name, t) :: rest => preorder (Join [p, name]) t ++ preorderAll p rest
end

mutual
/-- Number of nodes on the longest branch of a tree. -/
def height : Tree → Nat
  | .node cs => heightAll cs + 1
/-- Largest height among the subtrees of a list of children. -/
def heightAll : List (String × Tree) → Nat
  | [] => 0
  | (_, t) :: rest => max (height t) (heightAll rest)
end

mutual
/-- The client serves the tree `t` at the path `p`: in every state that satisfies
`I`, `Children` of the path of a node returns the names of its children, in order
and without error. -/
def Serves {σ : Type} (conn : zkClient σ) (I : σ → Prop) : String → Tree → Prop
  | p, .node cs =>
    (∀ c, I c → (conn.Children p c).1.1 = cs.map Prod.fst ∧ (conn.Children p c).1.2.2 = none) ∧
      ServesAll conn I p cs
/-- The client serves each of the children of `p`. -/
def ServesAll {σ : Type} (conn : zkClient σ) (I : σ → Prop) :
    String → List (String × Tree) → Prop
  | _, [] => True
  | p, (name, t) :: rest => Serves conn I (Join [p, name]) t ∧ ServesAll conn I p rest
end

/-- The tree of the first test case, rooted at `/`. -/
def tree8T : Tree :=
  .node [("foo", .node [
    ("bar", .node [("aaa", .node []), ("bbb", .node [])]),
    ("baz", .node [("xxx", .node []), ("yyy", .node [])])])]

/-- A trace with its outcome: when the outcome is a non-nil error, the trace ends
with the failing processor return that gave this error and holds no other failing
return; otherwise it holds no failing return at all. -/
def EndsAtFailure (o : Outcome) (evs : List Event) : Prop :=
  match o with
  | .returned (some e) =>
    ∃ init last, evs = init ++ [last] ∧ (∀ x ∈ init, failure x = none) ∧ failure last = some e
  | _ => ∀ x ∈ evs, failure x = none

/-- A node processor that fails with `boom` at the path `q` and nowhere else. -/
def failAt {τ : Type} (q : String) : ZnodeProcessor τ := fun path s =>
  if path = q then .ret false (some "boom") s else .ret false none s

/-- A client with the root, its children `a` and `b`, and nothing below. -/
def twoLeaves : memZkClient :=
  ((newMemZkClient.node "/" "" ["a", "b"]).node "/a" "" []).node "/b" "" []

/-- A client whose root lists `ghost` and `foo`, of which only `/foo` exists. -/
def ghostChild : memZkClient :=
  (newMemZkClient.node "/" "" ["ghost", "foo"]).node "/foo" "" []

/-- A children processor that selects by a table: at a path of the table the names
given there, elsewhere none; it never fails. -/
def selectOnly {τ : Type} (table : List (String × List String)) : ChildrenProcessor τ :=
  fun path _ _ _ s => ⟨[], (table.lookup path).getD [], none, s⟩

/-- A client whose root lists `.`. -/
def dotChild : memZkClient := newMemZkClient.node "/" "" ["."]

/-! ## Unfolding `Walk` -/

section engine

variable {σ τ : Type}

theorem Walk_node_err (z : ZkWalker σ) (nf : ZnodeProcessor τ) (cf : ChildrenProcessor τ)
    (fuel d : Nat) (p : String) (c : σ) (s : τ) (e : Err)
    (h : (callZnodeFn z nf d p c s).err = some e) :
    Walk z nf cf (fuel + 1) d p c s =
      ⟨.returned (some e), nodeEvents d p (callZnodeFn z nf d p c s),
        (callZnodeFn z nf d p c s).conn, (callZnodeFn z nf d p c s).pol⟩ := by
  simp only [callZnodeFn] at h
  simp only [Walk, callZnodeFn]
  split
  · next e2 h2 => rw [h] at h2; cases h2; rfl
  · next h2 => rw [h] at h2; cases h2

theorem Walk_skip (z : ZkWalker σ) (nf : ZnodeProcessor τ) (cf : ChildrenProcessor τ)
    (fuel d : Nat) (p : String) (c : σ) (s : τ)
    (h : (callZnodeFn z nf d p c s).err = none)
    (hs : (callZnodeFn z nf d p c s).skipChildren = true) :
    Walk z nf cf (fuel + 1) d p c s =
      ⟨.returned none, nodeEvents d p (callZnodeFn z nf d p c s),
        (callZnodeFn z nf d p c s).conn, (callZnodeFn z nf d p c s).pol⟩ := by
  simp only [callZnodeFn] at h hs
  simp only [Walk, callZnodeFn]
  split
  · next e2 h2 => rw [h] at h2; cases h2
  · next h2 => simp [hs]

theorem Walk_children_err (z : ZkWalker σ) (nf : ZnodeProcessor τ) (cf : ChildrenProcessor τ)
    (fuel d : Nat) (p : String) (c : σ) (s : τ) (e : Err)
    (h : (callZnodeFn z nf d p c s).err = none)
    (hs : (callZnodeFn z nf d p c s).skipChildren = false)
    (hc : (callChildrenFn z nf cf d p c s).err = some e) :
    Walk z nf cf (fuel + 1) d p c s =
      ⟨.returned (some e),
        nodeEvents d p (callZnodeFn z nf d p c s) ++
          listEvents d p (callChildren z nf d p c s).1 (callChildrenFn z nf cf d p c s),
        (callChildren z nf d p c s).2, (callChildrenFn z nf cf d p c s).s⟩ := by
  simp only [callZnodeFn, callChildrenFn, callChildren] at h hs hc
  simp only [Walk, callZnodeFn, callChildrenFn, callChildren]
  split
  · next e2 h2 => rw [h] at h2; cases h2
  · next h2 =>
    simp only [hs, Bool.false_eq_true, if_false]
    split
    · next e3 h3 => rw [hc] at h3; cases h3; rfl
    · next h3 => rw [hc] at h3; cases h3

theorem Walk_descend (z : ZkWalker σ) (nf : ZnodeProcessor τ) (cf : ChildrenProcessor τ)
    (fuel d : Nat) (p : String) (c : σ) (s : τ)
    (h : (callZnodeFn z nf d p c s).err = none)
    (hs : (callZnodeFn z nf d p c s).skipChildren = false)
    (hc : (callChildrenFn z nf cf d p c s).err = none) :
    Walk z nf cf (fuel + 1) d p c s =
      ⟨(callWalkChildren z nf cf fuel d p c s).outcome,
        nodeEvents d p (callZnodeFn z nf d p c s) ++
          listEvents d p (callChildren z nf d p c s).1 (callChildrenFn z nf cf d p c s) ++
          (callWalkChildren z nf cf fuel d p c s).events,
        (callWalkChildren z nf cf fuel d p c s).conn,
        (callWalkChildren z nf cf fuel d p c s).pol⟩ := by
  simp only [callZnodeFn, callChildrenFn, callChildren] at h hs hc
  simp only [Walk, callZnodeFn, callChildrenFn, callChildren, callWalkChildren]
  split
  · next e2 h2 => rw [h] at h2; cases h2
  · next h2 =>
    simp only [hs, Bool.false_eq_true, if_false]
    split
    · next e3 h3 => rw [hc] at h3; cases h3
    · next h3 => rfl

/-- The four ways a frame with fuel can go. -/
theorem Walk_cases (z : ZkWalker σ) (nf : ZnodeProcessor τ) (cf : ChildrenProcessor τ)
    (d : Nat) (p : String) (c : σ) (s : τ) :
    (∃ e, (callZnodeFn z nf d p c s).err = some e) ∨
    ((callZnodeFn z nf d p c s).err = none ∧ (callZnodeFn z nf d p c s).skipChildren = true) ∨
    ((callZnodeFn z nf d p c s).err = none ∧ (callZnodeFn z nf d p c s).skipChildren = false ∧
      ∃ e, (callChildrenFn z nf cf d p c s).err = some e) ∨
    ((callZnodeFn z nf d p c s).err = none ∧ (callZnodeFn z nf d p c s).skipChildren = false ∧
      (callChildrenFn z nf cf d p c s).err = none) := by
  cases h : (callZnodeFn z nf d p c s).err with
  | some e => exact Or.inl ⟨e, rfl⟩
  | none =>
    cases hs : (callZnodeFn z nf d p c s).skipChildren with
    | true => exact Or.inr (Or.inl ⟨rfl, rfl⟩)
    | false =>
      cases hc : (callChildrenFn z nf cf d p c s).err with
      | some e => exact Or.inr (Or.inr (Or.inl ⟨rfl, rfl, e, rfl⟩))
      | none => exact Or.inr (Or.inr (Or.inr ⟨rfl, rfl, rfl⟩))

theorem walkChildren_nil (walk : String → σ → τ → Run σ τ) (p : String) (c : σ) (s : τ) :
    walkChildren walk p [] c s = ⟨.returned none, [], c, s⟩ := rfl

theorem walkChildren_cons_ok (walk : String → σ → τ → Run σ τ) (p ch : String)
    (rest : List String) (c : σ) (s : τ)
    (h : (walk (Join [p, ch]) c s).outcome = .returned none) :
    walkChildren walk p (ch :: rest) c s =
      ⟨(walkChildren walk p rest (walk (Join [p, ch]) c s).conn
          (walk (Join [p, ch]) c s).pol).outcome,
        (walk (Join [p, ch]) c s).events ++
          (walkChildren walk p rest (walk (Join [p, ch]) c s).conn
            (walk (Join [p, ch]) c s).pol).events,
        (walkChildren walk p rest (walk (Join [p, ch]) c s).conn
          (walk (Join [p, ch]) c s).pol).conn,
        (walkChildren walk p rest (walk (Join [p, ch]) c s).conn
          (walk (Join [p, ch]) c s).pol).pol⟩ := by
  simp only [walkChildren, h]

theorem walkChildren_cons_stop (walk : String → σ → τ → Run σ τ) (p ch : String)
    (rest : List String) (c : σ) (s : τ)
    (h : (walk (Join [p, ch]) c s).outcome ≠ .returned none) :
    walkChildren walk p (ch :: rest) c s = walk (Join [p, ch]) c s := by
  simp only [walkChildren]

end engine

section traces

variable {σ τ : Type}

/-! ## What the node processor call leaves in the trace -/

theorem runZnodeFn_events (z : ZkWalker σ) (d : Nat) (p : String) (prog : NodeProg τ) (c : σ) :
    ∀ e ∈ (runZnodeFn z d p prog c).events, e.depth = d ∧
      (e.call = .getter p ∨ e.call = .get p ∨ (∃ l, e.call = .printf l) ∨
        ∃ l, e.call = .logPrintf l) := by
  induction prog generalizing c with
  | ret skip err s => intro e he; simp [runZnodeFn] at he
  | znode k ih =>
    intro e he
    simp only [runZnodeFn, List.mem_cons] at he
    rcases he with rfl | rfl | he
    · simp
    · simp
    · exact ih _ _ e he
  | printf line k ih =>
    intro e he
    simp only [runZnodeFn, List.mem_cons] at he
    rcases he with rfl | he
    · simp
    · exact ih _ e he
  | logPrintf line k ih =>
    intro e he
    simp only [runZnodeFn, List.mem_cons] at he
    rcases he with rfl | he
    · simp
    · exact ih _ e he

theorem getPaths_runZnodeFn (z : ZkWalker σ) (d : Nat) (p : String) (prog : NodeProg τ) (c : σ) :
    getPaths (runZnodeFn z d p prog c).events = getterPaths (runZnodeFn z d p prog c).events := by
  induction prog generalizing c with
  | ret skip err s => simp [runZnodeFn, getPaths, getterPaths]
  | znode k ih =>
    have := ih (z.conn.Get p c).1 (z.conn.Get p c).2
    simp only [getPaths, getterPaths] at this
    simp [runZnodeFn, getPaths, getterPaths, List.filterMap_cons, this]
  | printf line k ih =>
    have := ih c
    simp only [getPaths, getterPaths] at this
    simp [runZnodeFn, getPaths, getterPaths, List.filterMap_cons, this]
  | logPrintf line k ih =>
    have := ih c
    simp only [getPaths, getterPaths] at this
    simp [runZnodeFn, getPaths, getterPaths, List.filterMap_cons, this]

end traces

section frames

variable {σ τ : Type}

theorem nodeEvents_depth (d : Nat) (p : String) (z : ZkWalker σ) (prog : NodeProg τ) (c : σ) :
    ∀ e ∈ nodeEvents d p (runZnodeFn z d p prog c), e.depth = d := by
  intro e he
  simp only [nodeEvents, List.mem_cons, List.mem_append, List.mem_singleton,
    List.not_mem_nil, or_false] at he
  rcases he with rfl | rfl | he | rfl
  · rfl
  · rfl
  · exact (runZnodeFn_events z d p prog c e he).1
  · rfl

theorem listEvents_depth (d : Nat) (p : String) (l : LsResult) (cr : ChildrenRet τ) :
    ∀ e ∈ listEvents d p l cr, e.depth = d := by
  intro e he
  simp only [listEvents, List.mem_cons, List.mem_append, List.mem_map,
    List.mem_singleton, List.not_mem_nil, or_false] at he
  rcases he with rfl | rfl | ⟨line, _, rfl⟩ | rfl <;> rfl

/-- Every event of a walk entered at depth `d` comes from a frame of depth at
least `d`. -/
theorem Walk_depth_ge (z : ZkWalker σ) (nf : ZnodeProcessor τ) (cf : ChildrenProcessor τ)
    (fuel : Nat) : ∀ (d : Nat) (p : String) (c : σ) (s : τ),
    ∀ e ∈ (Walk z nf cf fuel d p c s).events, d ≤ e.depth := by
  induction fuel with
  | zero => intro d p c s e he; simp [Walk] at he
  | succ fuel ih =>
    intro d p c s e he
    have hloop : ∀ (cs : List String) (c : σ) (s : τ),
        ∀ e ∈ (walkChildren (Walk z nf cf fuel (d + 1)) p cs c s).events, d + 1 ≤ e.depth := by
      intro cs
      induction cs with
      | nil => intro c s e he; simp [walkChildren] at he
      | cons ch rest ihl =>
        intro c s e he
        by_cases h : (Walk z nf cf fuel (d + 1) (Join [p, ch]) c s).outcome = .returned none
        · rw [walkChildren_cons_ok _ _ _ _ _ _ h] at he
          simp only [List.mem_append] at he
          rcases he with he | he
          · exact ih _ _ _ _ e he
          · exact ihl _ _ e he
        · rw [walkChildren_cons_stop _ _ _ _ _ _ h] at he
          exact ih _ _ _ _ e he
    rcases Walk_cases z nf cf d p c s with ⟨e0, h⟩ | ⟨h, hs⟩ | ⟨h, hs, e0, hc⟩ | ⟨h, hs, hc⟩
    · rw [Walk_node_err z nf cf fuel d p c s e0 h] at he
      exact le_of_eq (nodeEvents_depth d p z _ c e he).symm
    · rw [Walk_skip z nf cf fuel d p c s h hs] at he
      exact le_of_eq (nodeEvents_depth d p z _ c e he).symm
    · rw [Walk_children_err z nf cf fuel d p c s e0 h hs hc] at he
      simp only [List.mem_append] at he
      rcases he with he | he
      · exact le_of_eq (nodeEvents_depth d p z _ c e he).symm
      · exact le_of_eq (listEvents_depth d p _ _ e he).symm
    · rw [Walk_descend z nf cf fuel d p c s h hs hc] at he
      simp only [List.mem_append] at he
      rcases he with (he | he) | he
      · exact le_of_eq (nodeEvents_depth d p z _ c e he).symm
      · exact le_of_eq (listEvents_depth d p _ _ e he).symm
      · exact Nat.le_of_succ_le (hloop _ _ _ e he)

theorem walkChildren_depth_ge (z : ZkWalker σ) (nf : ZnodeProcessor τ)
    (cf : ChildrenProcessor τ) (fuel d : Nat) (p : String) (cs : List String) :
    ∀ (c : σ) (s : τ), ∀ e ∈ (walkChildren (Walk z nf cf fuel d) p cs c s).events,
      d ≤ e.depth := by
  induction cs with
  | nil => intro c s e he; simp [walkChildren] at he
  | cons ch rest ihl =>
    intro c s e he
    by_cases h : (Walk z nf cf fuel d (Join [p, ch]) c s).outcome = .returned none
    · rw [walkChildren_cons_ok _ _ _ _ _ _ h] at he
      simp only [List.mem_append] at he
      rcases he with he | he
      · exact Walk_depth_ge z nf cf fuel _ _ _ _ e he
      · exact ihl _ _ e he
    · rw [walkChildren_cons_stop _ _ _ _ _ _ h] at he
      exact Walk_depth_ge z nf cf fuel _ _ _ _ e he

end frames

section extract

variable {σ τ : Type}

theorem nodePaths_runZnodeFn (z : ZkWalker σ) (d : Nat) (p : String) (prog : NodeProg τ)
    (c : σ) : nodePaths (runZnodeFn z d p prog c).events = [] := by
  simp only [nodePaths, List.filterMap_eq_nil_iff]
  intro e he
  rcases (runZnodeFn_events z d p prog c e he).2 with h | h | ⟨l, h⟩ | ⟨l, h⟩ <;> simp [h]

theorem lsPaths_runZnodeFn (z : ZkWalker σ) (d : Nat) (p : String) (prog : NodeProg τ)
    (c : σ) : lsPaths (runZnodeFn z d p prog c).events = [] := by
  simp only [lsPaths, List.filterMap_eq_nil_iff]
  intro e he
  rcases (runZnodeFn_events z d p prog c e he).2 with h | h | ⟨l, h⟩ | ⟨l, h⟩ <;> simp [h]

theorem walkPaths_runZnodeFn (z : ZkWalker σ) (d : Nat) (p : String) (prog : NodeProg τ)
    (c : σ) : walkPaths (runZnodeFn z d p prog c).events = [] := by
  simp only [walkPaths, List.filterMap_eq_nil_iff]
  intro e he
  rcases (runZnodeFn_events z d p prog c e he).2 with h | h | ⟨l, h⟩ | ⟨l, h⟩ <;> simp [h]

theorem walkPathsAt_runZnodeFn (z : ZkWalker σ) (d k : Nat) (p : String) (prog : NodeProg τ)
    (c : σ) : walkPathsAt k (runZnodeFn z d p prog c).events = [] := by
  simp only [walkPathsAt, List.filterMap_eq_nil_iff]
  intro e he
  rcases (runZnodeFn_events z d p prog c e he).2 with h | h | ⟨l, h⟩ | ⟨l, h⟩ <;> simp [h]

theorem childrenFnPaths_runZnodeFn (z : ZkWalker σ) (d : Nat) (p : String)
    (prog : NodeProg τ) (c : σ) : childrenFnPaths (runZnodeFn z d p prog c).events = [] := by
  simp only [childrenFnPaths, List.filterMap_eq_nil_iff]
  intro e he
  rcases (runZnodeFn_events z d p prog c e he).2 with h | h | ⟨l, h⟩ | ⟨l, h⟩ <;> simp [h]

theorem failure_runZnodeFn (z : ZkWalker σ) (d : Nat) (p : String) (prog : NodeProg τ)
    (c : σ) : ∀ e ∈ (runZnodeFn z d p prog c).events, failure e = none := by
  intro e he
  rcases (runZnodeFn_events z d p prog c e he).2 with h | h | ⟨l, h⟩ | ⟨l, h⟩ <;>
    simp [failure, h]

theorem nodePaths_nodeEvents (z : ZkWalker σ) (d : Nat) (p : String) (prog : NodeProg τ)
    (c : σ) : nodePaths (nodeEvents d p (runZnodeFn z d p prog c)) = [p] := by
  have h := nodePaths_runZnodeFn z d p prog c
  simp only [nodePaths] at h
  simp [nodePaths, nodeEvents, List.filterMap_cons, List.filterMap_append, h]

theorem lsPaths_nodeEvents (z : ZkWalker σ) (d : Nat) (p : String) (prog : NodeProg τ)
    (c : σ) : lsPaths (nodeEvents d p (runZnodeFn z d p prog c)) = [] := by
  have h := lsPaths_runZnodeFn z d p prog c
  simp only [lsPaths] at h
  simp [lsPaths, nodeEvents, List.filterMap_cons, List.filterMap_append, h]

theorem walkPaths_nodeEvents (z : ZkWalker σ) (d : Nat) (p : String) (prog : NodeProg τ)
    (c : σ) : walkPaths (nodeEvents d p (runZnodeFn z d p prog c)) = [p] := by
  have h := walkPaths_runZnodeFn z d p prog c
  simp only [walkPaths] at h
  simp [walkPaths, nodeEvents, List.filterMap_cons, List.filterMap_append, h]

theorem walkPathsAt_nodeEvents (z : ZkWalker σ) (d : Nat) (p : String) (prog : NodeProg τ)
    (c : σ) : walkPathsAt d (nodeEvents d p (runZnodeFn z d p prog c)) = [p] := by
  have h := walkPathsAt_runZnodeFn z d d p prog c
  simp only [walkPathsAt] at h
  simp [walkPathsAt, nodeEvents, List.filterMap_cons, List.filterMap_append, h]

theorem childrenFnPaths_nodeEvents (z : ZkWalker σ) (d : Nat) (p : String)
    (prog : NodeProg τ) (c : σ) :
    childrenFnPaths (nodeEvents d p (runZnodeFn z d p prog c)) = [] := by
  have h := childrenFnPaths_runZnodeFn z d p prog c
  simp only [childrenFnPaths] at h
  simp [childrenFnPaths, nodeEvents, List.filterMap_cons, List.filterMap_append, h]

theorem getPaths_nodeEvents (d : Nat) (p : String) (n : NodeRun σ τ) :
    getPaths (nodeEvents d p n) = getPaths n.events := by
  simp [getPaths, nodeEvents, List.filterMap_cons, List.filterMap_append]

theorem getterPaths_nodeEvents (d : Nat) (p : String) (n : NodeRun σ τ) :
    getterPaths (nodeEvents d p n) = getterPaths n.events := by
  simp [getterPaths, nodeEvents, List.filterMap_cons, List.filterMap_append]

theorem nodePaths_listEvents (d : Nat) (p : String) (l : LsResult) (cr : ChildrenRet τ) :
    nodePaths (listEvents d p l cr) = [] := by
  simp [nodePaths, listEvents, List.filterMap_cons, List.filterMap_append]

theorem lsPaths_listEvents (d : Nat) (p : String) (l : LsResult) (cr : ChildrenRet τ) :
    lsPaths (listEvents d p l cr) = [p] := by
  simp [lsPaths, listEvents, List.filterMap_cons, List.filterMap_append]

theorem walkPaths_listEvents (d : Nat) (p : String) (l : LsResult) (cr : ChildrenRet τ) :
    walkPaths (listEvents d p l cr) = [] := by
  simp [walkPaths, listEvents, List.filterMap_cons, List.filterMap_append]

theorem walkPathsAt_listEvents (d k : Nat) (p : String) (l : LsResult) (cr : ChildrenRet τ) :
    walkPathsAt k (listEvents d p l cr) = [] := by
  simp [walkPathsAt, listEvents, List.filterMap_cons, List.filterMap_append]

theorem childrenFnPaths_listEvents (d : Nat) (p : String) (l : LsResult)
    (cr : ChildrenRet τ) : childrenFnPaths (listEvents d p l cr) = [p] := by
  simp [childrenFnPaths, listEvents, List.filterMap_cons, List.filterMap_append]

theorem getPaths_listEvents (d : Nat) (p : String) (l : LsResult) (cr : ChildrenRet τ) :
    getPaths (listEvents d p l cr) = [] := by
  simp [getPaths, listEvents, List.filterMap_cons, List.filterMap_append]

theorem getterPaths_listEvents (d : Nat) (p : String) (l : LsResult) (cr : ChildrenRet τ) :
    getterPaths (listEvents d p l cr) = [] := by
  simp [getterPaths, listEvents, List.filterMap_cons, List.filterMap_append]

end extract

section claims

variable {σ τ : Type}

theorem eventsAt_append (d : Nat) (a b : List Event) :
    eventsAt d (a ++ b) = eventsAt d a ++ eventsAt d b := by
  simp [eventsAt]

theorem eventsAt_self (d : Nat) (evs : List Event) (h : ∀ e ∈ evs, e.depth = d) :
    eventsAt d evs = evs := by
  simp only [eventsAt, List.filter_eq_self]
  intro e he
  simp [h e he]

theorem eventsAt_deeper (d k : Nat) (evs : List Event) (hk : d < k)
    (h : ∀ e ∈ evs, k ≤ e.depth) : eventsAt d evs = [] := by
  simp only [eventsAt, List.filter_eq_nil_iff]
  intro e he
  have := h e he
  simp only [decide_eq_true_eq]
  omega

theorem walkPathsAt_append (d : Nat) (a b : List Event) :
    walkPathsAt d (a ++ b) = walkPathsAt d a ++ walkPathsAt d b := by
  simp [walkPathsAt]

theorem walkPathsAt_deeper (d k : Nat) (evs : List Event) (hk : d < k)
    (h : ∀ e ∈ evs, k ≤ e.depth) : walkPathsAt d evs = [] := by
  simp only [walkPathsAt, List.filterMap_eq_nil_iff]
  intro e he
  have := h e he
  have hne : ¬ e.depth = d := by omega
  cases e.call <;> simp [hne]

/-- A walk whose processors never return an error never returns one. -/
theorem Walk_no_error (z : ZkWalker σ) (nf : ZnodeProcessor τ) (cf : ChildrenProcessor τ)
    (hn : ∀ d p c s, (callZnodeFn z nf d p c s).err = none)
    (hc : ∀ p names st err s, (cf p names st err s).err = none) (fuel : Nat) :
    ∀ (d : Nat) (p : String) (c : σ) (s : τ),
      (Walk z nf cf fuel d p c s).outcome = .timeout ∨
      (Walk z nf cf fuel d p c s).outcome = .returned none := by
  induction fuel with
  | zero => intro d p c s; exact Or.inl rfl
  | succ fuel ih =>
    intro d p c s
    have hloop : ∀ (cs : List String) (c : σ) (s : τ),
        (walkChildren (Walk z nf cf fuel (d + 1)) p cs c s).outcome = .timeout ∨
        (walkChildren (Walk z nf cf fuel (d + 1)) p cs c s).outcome = .returned none := by
      intro cs
      induction cs with
      | nil => intro c s; exact Or.inr rfl
      | cons ch rest ihl =>
        intro c s
        by_cases h : (Walk z nf cf fuel (d + 1) (Join [p, ch]) c s).outcome = .returned none
        · rw [walkChildren_cons_ok _ _ _ _ _ _ h]
          exact ihl _ _
        · rw [walkChildren_cons_stop _ _ _ _ _ _ h]
          exact ih _ _ _ _
    rcases Walk_cases z nf cf d p c s with ⟨e0, h⟩ | ⟨h, hs⟩ | ⟨h, hs, e0, hce⟩ | ⟨h, hs, hce⟩
    · rw [hn] at h; cases h
    · rw [Walk_skip z nf cf fuel d p c s h hs]; exact Or.inr rfl
    · simp only [callChildrenFn] at hce
      rw [hc] at hce; cases hce
    · rw [Walk_descend z nf cf fuel d p c s h hs hce]
      exact hloop _ _ _

/-- C6. `AllChildren` never returns an error; a listing without error is returned
unchanged (same names, same order), a listing with an error gives the empty
selection, whatever the path, the names, the metadata and the processor state. -/
theorem AllChildren_contract (path : String) (lsChildren : List String) (lsStat : Stat)
    (e : Err) (s : τ) :
    (AllChildren path lsChildren lsStat none s).err = none ∧
    (AllChildren path lsChildren lsStat none s).children = lsChildren ∧
    (AllChildren path lsChildren lsStat (some e) s).err = none ∧
    (AllChildren path lsChildren lsStat (some e) s).children = [] :=
  ⟨rfl, rfl, rfl, rfl⟩

theorem PrintZnodePath_run (z : ZkWalker σ) (d : Nat) (p : String) (c : σ) (s : τ) :
    (callZnodeFn z PrintZnodePath d p c s).err = none ∧
    (callZnodeFn z PrintZnodePath d p c s).skipChildren = false := by
  simp [callZnodeFn, PrintZnodePath, runZnodeFn]

theorem PrintZnodePathAndContent_err (z : ZkWalker σ) (d : Nat) (p : String) (c : σ) (s : τ) :
    (callZnodeFn z PrintZnodePathAndContent d p c s).err = none := by
  simp only [callZnodeFn, PrintZnodePathAndContent, runZnodeFn]
  split
  · simp [runZnodeFn]
  · split <;> simp [runZnodeFn]

theorem AllChildren_err (p : String) (names : List String) (st : Stat) (err : Option Err)
    (s : τ) : (AllChildren p names st err s).err = none := by
  cases err <;> rfl

/-- C10. With `PrintZnodePath` or `PrintZnodePathAndContent` as node processor and
`AllChildren` as children processor, for every client, start path and states, a
walk that returns does so with a nil error: its outcome is never a non-nil error,
whatever `Get` and `Children` answer. -/
theorem builtin_policies_return_nil (z : ZkWalker σ) (fuel d : Nat) (p : String) (c : σ)
    (s : τ) :
    ((Walk z PrintZnodePath AllChildren fuel d p c s).outcome = .timeout ∨
      (Walk z PrintZnodePath AllChildren fuel d p c s).outcome = .returned none) ∧
    ((Walk z PrintZnodePathAndContent AllChildren fuel d p c s).outcome = .timeout ∨
      (Walk z PrintZnodePathAndContent AllChildren fuel d p c s).outcome = .returned none) :=
  ⟨Walk_no_error z _ _ (fun d p c s => (PrintZnodePath_run z d p c s).1) AllChildren_err
      fuel d p c s,
    Walk_no_error z _ _ (PrintZnodePathAndContent_err z) AllChildren_err fuel d p c s⟩

/-- Trace of a frame whose node processor returns `(true, nil)`. -/
theorem Walk_skip_trace (z : ZkWalker σ) (nf : ZnodeProcessor τ) (cf : ChildrenProcessor τ)
    (fuel d : Nat) (P : String) (c : σ) (s : τ)
    (hskip : (runZnodeFn z d P (nf P s) c).skipChildren = true)
    (herr : (runZnodeFn z d P (nf P s) c).err = none) :
    (Walk z nf cf (fuel + 1) d P c s).outcome = .returned none ∧
    lsPaths (Walk z nf cf (fuel + 1) d P c s).events = [] ∧
    childrenFnPaths (Walk z nf cf (fuel + 1) d P c s).events = [] ∧
    walkPaths (Walk z nf cf (fuel + 1) d P c s).events = [P] ∧
    nodePaths (Walk z nf cf (fuel + 1) d P c s).events = [P] ∧
    (Walk z nf cf (fuel + 1) d P c s).conn = (runZnodeFn z d P (nf P s) c).conn := by
  rw [Walk_skip z nf cf fuel d P c s herr hskip]
  exact ⟨rfl, lsPaths_nodeEvents z d P _ c, childrenFnPaths_nodeEvents z d P _ c,
    walkPaths_nodeEvents z d P _ c, nodePaths_nodeEvents z d P _ c, rfl⟩

/-- C4. If the node processor called at `P` returns `skipChildren = true` with a nil
error, then `Walk(P)` (with any fuel but none, and whatever the client and the
children processor) returns nil and its whole trace is that of this one frame up
to the return of the processor: no `Children` call, no children processor call, no
frame other than that of `P`, no node processor call other than the one at `P`, and
the client is left in the state the processor call left it in. -/
theorem Walk_prunes (z : ZkWalker σ) (nf : ZnodeProcessor τ) (cf : ChildrenProcessor τ)
    (fuel d : Nat) (P : String) (c : σ) (s : τ)
    (hskip : (runZnodeFn z d P (nf P s) c).skipChildren = true)
    (herr : (runZnodeFn z d P (nf P s) c).err = none) :
    (Walk z nf cf (fuel + 1) d P c s).outcome = .returned none ∧
    lsPaths (Walk z nf cf (fuel + 1) d P c s).events = [] ∧
    childrenFnPaths (Walk z nf cf (fuel + 1) d P c s).events = [] ∧
    walkPaths (Walk z nf cf (fuel + 1) d P c s).events = [P] ∧
    nodePaths (Walk z nf cf (fuel + 1) d P c s).events = [P] ∧
    (Walk z nf cf (fuel + 1) d P c s).conn = (runZnodeFn z d P (nf P s) c).conn :=
  Walk_skip_trace z nf cf fuel d P c s hskip herr

/-- Fourth test case, and the pruned frame of `/foo` in it. -/
theorem Walk_prunes_witness :
    ((Walk memWalker skipNonRootZnodeProcessor AllChildren 4 1 "/foo" chain4 ()).outcome =
        .returned none ∧
      lsPaths (Walk memWalker skipNonRootZnodeProcessor AllChildren 4 1 "/foo" chain4 ()).events
        = [] ∧
      childrenFnPaths
        (Walk memWalker skipNonRootZnodeProcessor AllChildren 4 1 "/foo" chain4 ()).events = [] ∧
      walkPaths (Walk memWalker skipNonRootZnodeProcessor AllChildren 4 1 "/foo" chain4 ()).events
        = ["/foo"] ∧
      nodePaths (Walk memWalker skipNonRootZnodeProcessor AllChildren 4 1 "/foo" chain4 ()).events
        = ["/foo"] ∧
      (Walk memWalker skipNonRootZnodeProcessor AllChildren 4 1 "/foo" chain4 ()).conn =
        (runZnodeFn memWalker 1 "/foo" (skipNonRootZnodeProcessor "/foo" ()) chain4).conn) ∧
    (Walk memWalker skipNonRootZnodeProcessor AllChildren 4 0 "/" chain4 ()).conn.visitedLs
      = ["/"] ∧
    (Walk memWalker skipNonRootZnodeProcessor AllChildren 4 0 "/" chain4 ()).conn.visitedGet
      = ["/", "/foo"] ∧
    nodePaths (Walk memWalker skipNonRootZnodeProcessor AllChildren 4 0 "/" chain4 ()).events
      = ["/", "/foo"] :=
  ⟨Walk_prunes memWalker skipNonRootZnodeProcessor AllChildren 3 1 "/foo" chain4 ()
      (by decide) (by decide), by decide, by decide, by decide⟩

end claims

section laziness

variable {σ τ : Type}

/-- A property of traces that holds of the empty trace, of the two pieces a frame
emits itself, and of a concatenation of traces that have it, holds of every walk. -/
theorem Walk_events_ind (z : ZkWalker σ) (nf : ZnodeProcessor τ) (cf : ChildrenProcessor τ)
    (Q : List Event → Prop) (hnil : Q [])
    (happ : ∀ a b, Q a → Q b → Q (a ++ b))
    (hnode : ∀ d p c s, Q (nodeEvents d p (callZnodeFn z nf d p c s)))
    (hlist : ∀ d p l (cr : ChildrenRet τ), Q (listEvents d p l cr)) (fuel : Nat) :
    ∀ (d : Nat) (p : String) (c : σ) (s : τ), Q (Walk z nf cf fuel d p c s).events := by
  induction fuel with
  | zero => intro d p c s; exact hnil
  | succ fuel ih =>
    intro d p c s
    have hloop : ∀ (cs : List String) (c : σ) (s : τ),
        Q (walkChildren (Walk z nf cf fuel (d + 1)) p cs c s).events := by
      intro cs
      induction cs with
      | nil => intro c s; exact hnil
      | cons ch rest ihl =>
        intro c s
        by_cases h : (Walk z nf cf fuel (d + 1) (Join [p, ch]) c s).outcome = .returned none
        · rw [walkChildren_cons_ok _ _ _ _ _ _ h]
          exact happ _ _ (ih _ _ _ _) (ihl _ _)
        · rw [walkChildren_cons_stop _ _ _ _ _ _ h]
          exact ih _ _ _ _
    rcases Walk_cases z nf cf d p c s with ⟨e0, h⟩ | ⟨h, hs⟩ | ⟨h, hs, e0, hce⟩ | ⟨h, hs, hce⟩
    · rw [Walk_node_err z nf cf fuel d p c s e0 h]; exact hnode d p c s
    · rw [Walk_skip z nf cf fuel d p c s h hs]; exact hnode d p c s
    · rw [Walk_children_err z nf cf fuel d p c s e0 h hs hce]
      exact happ _ _ (hnode d p c s) (hlist _ _ _ _)
    · rw [Walk_descend z nf cf fuel d p c s h hs hce]
      exact happ _ _ (happ _ _ (hnode d p c s) (hlist _ _ _ _)) (hloop _ _ _)

theorem getCalls_runZnodeFn (z : ZkWalker σ) (d : Nat) (p : String) (prog : NodeProg τ)
    (c : σ) :
    getCalls (runZnodeFn z d p prog c).events =
      (getterPaths (runZnodeFn z d p prog c).events).flatMap fun q => [Call.getter q, Call.get q]
    := by
  induction prog generalizing c with
  | ret skip err s => simp [runZnodeFn, getCalls, getterPaths]
  | znode k ih =>
    have := ih (z.conn.Get p c).1 (z.conn.Get p c).2
    simp only [getCalls, getterPaths] at this
    simp [runZnodeFn, getCalls, getterPaths, List.filterMap_cons, this]
  | printf line k ih =>
    have := ih c
    simp only [getCalls, getterPaths] at this
    simp [runZnodeFn, getCalls, getterPaths, List.filterMap_cons, this]
  | logPrintf line k ih =>
    have := ih c
    simp only [getCalls, getterPaths] at this
    simp [runZnodeFn, getCalls, getterPaths, List.filterMap_cons, this]

theorem getCalls_nodeEvents (d : Nat) (p : String) (n : NodeRun σ τ) :
    getCalls (nodeEvents d p n) = getCalls n.events := by
  simp [getCalls, nodeEvents, List.filterMap_cons, List.filterMap_append]

theorem getCalls_listEvents (d : Nat) (p : String) (l : LsResult) (cr : ChildrenRet τ) :
    getCalls (listEvents d p l cr) = [] := by
  simp [getCalls, listEvents, List.filterMap_cons, List.filterMap_append]

/-- C2. For every client, start path and processors, the `Get` calls of a walk are
exactly the getter invocations of the node processor, each `Get` coming right
after the invocation of the getter of the same path and nowhere else. So a node
processor that never invokes its getter causes no `Get` call, and one that
invokes it exactly once at every node causes the `Get` paths to be the visited
paths. -/
theorem Get_calls_are_getter_calls (z : ZkWalker σ) (nf : ZnodeProcessor τ)
    (cf : ChildrenProcessor τ) (fuel d : Nat) (p : String) (c : σ) (s : τ) :
    getPaths (Walk z nf cf fuel d p c s).events =
      getterPaths (Walk z nf cf fuel d p c s).events ∧
    getCalls (Walk z nf cf fuel d p c s).events =
      ((getterPaths (Walk z nf cf fuel d p c s).events).flatMap fun q =>
        [Call.getter q, Call.get q]) ∧
    ((∀ d q c s, getterPaths (runZnodeFn z d q (nf q s) c).events = []) →
      getPaths (Walk z nf cf fuel d p c s).events = []) ∧
    ((∀ d q c s, getterPaths (runZnodeFn z d q (nf q s) c).events = [q]) →
      getPaths (Walk z nf cf fuel d p c s).events =
        nodePaths (Walk z nf cf fuel d p c s).events) := by
  refine ⟨?_, ?_, ?_, ?_⟩
  · refine Walk_events_ind z nf cf (fun evs => getPaths evs = getterPaths evs) rfl ?_ ?_ ?_
      fuel d p c s
    · intro a b ha hb
      simp only [getPaths, getterPaths, List.filterMap_append] at ha hb ⊢
      rw [ha, hb]
    · intro d p c s
      rw [getPaths_nodeEvents, getterPaths_nodeEvents]
      exact getPaths_runZnodeFn z d p _ c
    · intro d p l cr
      rw [getPaths_listEvents, getterPaths_listEvents]
  · refine Walk_events_ind z nf cf
      (fun evs => getCalls evs = (getterPaths evs).flatMap fun q => [Call.getter q, Call.get q])
      rfl ?_ ?_ ?_ fuel d p c s
    · intro a b ha hb
      simp only [getCalls, getterPaths, List.filterMap_append, List.flatMap_append] at ha hb ⊢
      rw [ha, hb]
    · intro d p c s
      rw [getCalls_nodeEvents, getterPaths_nodeEvents]
      exact getCalls_runZnodeFn z d p _ c
    · intro d p l cr
      rw [getCalls_listEvents, getterPaths_listEvents]
      rfl
  · intro hnever
    refine Walk_events_ind z nf cf (fun evs => getPaths evs = []) rfl ?_ ?_ ?_ fuel d p c s
    · intro a b ha hb
      simp only [getPaths, List.filterMap_append] at ha hb ⊢
      rw [ha, hb]; rfl
    · intro d p c s
      rw [getPaths_nodeEvents]
      simp only [callZnodeFn]
      rw [getPaths_runZnodeFn, hnever]
    · intro d p l cr
      exact getPaths_listEvents d p l cr
  · intro honce
    refine Walk_events_ind z nf cf (fun evs => getPaths evs = nodePaths evs) rfl ?_ ?_ ?_
      fuel d p c s
    · intro a b ha hb
      simp only [getPaths, nodePaths, List.filterMap_append] at ha hb ⊢
      rw [ha, hb]
    · intro d p c s
      rw [getPaths_nodeEvents]
      simp only [callZnodeFn]
      rw [getPaths_runZnodeFn, honce, nodePaths_nodeEvents]
    · intro d p l cr
      rw [getPaths_listEvents, nodePaths_listEvents]

/-- Second test case: the chain, read once at every node. -/
theorem Get_calls_are_getter_calls_witness :
    getPaths (Walk memWalker getZnodeProcessor AllChildren 5 0 "/" chain4 ()).events =
      nodePaths (Walk memWalker getZnodeProcessor AllChildren 5 0 "/" chain4 ()).events ∧
    getPaths (Walk memWalker getZnodeProcessor AllChildren 5 0 "/" chain4 ()).events =
      ["/", "/foo", "/foo/bar", "/foo/bar/aaa"] ∧
    (Walk memWalker getZnodeProcessor AllChildren 5 0 "/" chain4 ()).conn.visitedGet =
      ["/", "/foo", "/foo/bar", "/foo/bar/aaa"] ∧
    (Walk memWalker getZnodeProcessor AllChildren 5 0 "/" chain4 ()).conn.visitedLs =
      ["/", "/foo", "/foo/bar", "/foo/bar/aaa"] ∧
    (Walk memWalker noopZnodeProcessor AllChildren 5 0 "/" tree8 ()).conn.visitedGet = [] :=
  ⟨(Get_calls_are_getter_calls memWalker getZnodeProcessor AllChildren 5 0 "/" chain4 ()).2.2.2
      (fun _ _ _ _ => rfl),
    by decide, by decide, by decide, by decide⟩

end laziness

section abort

variable {σ τ : Type}

theorem failure_nodeEvents_ok (z : ZkWalker σ) (d : Nat) (p : String) (prog : NodeProg τ)
    (c : σ) (h : (runZnodeFn z d p prog c).err = none) :
    ∀ x ∈ nodeEvents d p (runZnodeFn z d p prog c), failure x = none := by
  intro x hx
  simp only [nodeEvents, List.mem_cons, List.mem_append, List.mem_singleton,
    List.not_mem_nil, or_false] at hx
  rcases hx with rfl | rfl | hx | rfl
  · rfl
  · rfl
  · exact failure_runZnodeFn z d p prog c x hx
  · simpa [failure] using h

theorem failure_listEvents_init (d : Nat) (p : String) (l : LsResult) (cr : ChildrenRet τ) :
    ∀ x ∈ (⟨d, .ls p⟩ :: ⟨d, .childrenFn p l.1 l.2.1 l.2.2⟩ ::
      cr.logged.map (fun line => (⟨d, .logPrintf line⟩ : Event))), failure x = none := by
  intro x hx
  simp only [List.mem_cons, List.mem_map] at hx
  rcases hx with rfl | rfl | ⟨line, _, rfl⟩ <;> rfl

theorem failure_listEvents_ok (d : Nat) (p : String) (l : LsResult) (cr : ChildrenRet τ)
    (h : cr.err = none) : ∀ x ∈ listEvents d p l cr, failure x = none := by
  intro x hx
  have hsplit : listEvents d p l cr = (⟨d, .ls p⟩ :: ⟨d, .childrenFn p l.1 l.2.1 l.2.2⟩ ::
      cr.logged.map (fun line => (⟨d, .logPrintf line⟩ : Event))) ++
      [⟨d, .childrenRet p cr.children cr.err⟩] := by simp [listEvents]
  rw [hsplit, List.mem_append, List.mem_singleton] at hx
  rcases hx with hx | rfl
  · exact failure_listEvents_init d p l cr x hx
  · simpa [failure] using h

theorem EndsAtFailure_prepend (o : Outcome) (a evs : List Event)
    (ha : ∀ x ∈ a, failure x = none) (h : EndsAtFailure o evs) :
    EndsAtFailure o (a ++ evs) := by
  cases o with
  | timeout =>
    intro x hx
    rcases List.mem_append.1 hx with hx | hx
    · exact ha x hx
    · exact h x hx
  | returned err =>
    cases err with
    | none =>
      intro x hx
      rcases List.mem_append.1 hx with hx | hx
      · exact ha x hx
      · exact h x hx
    | some e =>
      obtain ⟨init, last, hev, hinit, hlast⟩ := h
      refine ⟨a ++ init, last, ?_, ?_, hlast⟩
      · rw [hev, List.append_assoc]
      · intro x hx
        rcases List.mem_append.1 hx with hx | hx
        · exact ha x hx
        · exact hinit x hx

theorem EndsAtFailure_ok (o : Outcome) (evs : List Event)
    (ho : o = .returned none) (h : EndsAtFailure o evs) : ∀ x ∈ evs, failure x = none := by
  subst ho; exact h

/-- Every walk ends at its first failing processor return, if it has one. -/
theorem Walk_EndsAtFailure (z : ZkWalker σ) (nf : ZnodeProcessor τ) (cf : ChildrenProcessor τ)
    (fuel : Nat) : ∀ (d : Nat) (p : String) (c : σ) (s : τ),
    EndsAtFailure (Walk z nf cf fuel d p c s).outcome (Walk z nf cf fuel d p c s).events := by
  induction fuel with
  | zero => intro d p c s x hx; simp [Walk] at hx
  | succ fuel ih =>
    intro d p c s
    have hloop : ∀ (cs : List String) (c : σ) (s : τ),
        EndsAtFailure (walkChildren (Walk z nf cf fuel (d + 1)) p cs c s).outcome
          (walkChildren (Walk z nf cf fuel (d + 1)) p cs c s).events := by
      intro cs
      induction cs with
      | nil => intro c s x hx; simp [walkChildren] at hx
      | cons ch rest ihl =>
        intro c s
        by_cases h : (Walk z nf cf fuel (d + 1) (Join [p, ch]) c s).outcome = .returned none
        · rw [walkChildren_cons_ok _ _ _ _ _ _ h]
          exact EndsAtFailure_prepend _ _ _ (EndsAtFailure_ok _ _ h (ih _ _ _ _)) (ihl _ _)
        · rw [walkChildren_cons_stop _ _ _ _ _ _ h]
          exact ih _ _ _ _
    rcases Walk_cases z nf cf d p c s with ⟨e0, h⟩ | ⟨h, hs⟩ | ⟨h, hs, e0, hce⟩ | ⟨h, hs, hce⟩
    · rw [Walk_node_err z nf cf fuel d p c s e0 h]
      refine ⟨⟨d, .walk p⟩ :: ⟨d, .znodeFn p⟩ :: (callZnodeFn z nf d p c s).events,
        ⟨d, .znodeRet p (callZnodeFn z nf d p c s).skipChildren (callZnodeFn z nf d p c s).err⟩,
        by simp [nodeEvents], ?_, by simpa [failure] using h⟩
      intro x hx
      simp only [List.mem_cons] at hx
      rcases hx with rfl | rfl | hx
      · rfl
      · rfl
      · exact failure_runZnodeFn z d p _ c x hx
    · rw [Walk_skip z nf cf fuel d p c s h hs]
      exact failure_nodeEvents_ok z d p _ c h
    · rw [Walk_children_err z nf cf fuel d p c s e0 h hs hce]
      refine EndsAtFailure_prepend _ _ _ (failure_nodeEvents_ok z d p _ c h) ?_
      refine ⟨_, ⟨d, .childrenRet p (callChildrenFn z nf cf d p c s).children
        (callChildrenFn z nf cf d p c s).err⟩, ?_,
        failure_listEvents_init d p (callChildren z nf d p c s).1
          (callChildrenFn z nf cf d p c s), by simpa [failure] using hce⟩
      simp [listEvents]
    · rw [Walk_descend z nf cf fuel d p c s h hs hce]
      rw [List.append_assoc]
      exact EndsAtFailure_prepend _ _ _ (failure_nodeEvents_ok z d p _ c h)
        (EndsAtFailure_prepend _ _ _ (failure_listEvents_ok d p _ _ hce) (hloop _ _ _))

/-- C3. For every client, start path and processors: if in the trace of a walk a
node processor call or a children processor call at a path `P` returns a non-nil
error `e`, then the walk returns exactly `e`, and that return is the last event of
the trace: no processor call, no `Children` or `Get` call and no descent follows. -/
theorem Walk_aborts_at_first_error (z : ZkWalker σ) (nf : ZnodeProcessor τ)
    (cf : ChildrenProcessor τ) (fuel d : Nat) (p : String) (c : σ) (s : τ)
    (pre post : List Event) (ev : Event) (P : String) (skip : Bool) (cs : List String)
    (e : Err)
    (hev : (Walk z nf cf fuel d p c s).events = pre ++ ev :: post)
    (hfail : ev.call = .znodeRet P skip (some e) ∨ ev.call = .childrenRet P cs (some e)) :
    (Walk z nf cf fuel d p c s).outcome = .returned (some e) ∧ post = [] := by
  have hf : failure ev = some e := by
    rcases hfail with h | h <;> simp [failure, h]
  have hmem : ev ∈ (Walk z nf cf fuel d p c s).events := by rw [hev]; simp
  have hinv := Walk_EndsAtFailure z nf cf fuel d p c s
  have key : ∀ e', (Walk z nf cf fuel d p c s).outcome = .returned (some e') →
      e' = e ∧ post = [] := by
    intro e' ho
    rw [ho] at hinv
    obtain ⟨init, last, hevs, hinit, hlast⟩ := hinv
    rw [hev] at hevs
    rcases List.eq_nil_or_concat post with hp | ⟨post', x, hp⟩
    · subst hp
      have := List.append_inj' hevs rfl
      have hl : ev = last := by simpa using this.2
      subst hl
      rw [hf] at hlast
      exact ⟨(Option.some.inj hlast).symm, rfl⟩
    · subst hp
      have h2 : (pre ++ ev :: post') ++ [x] = init ++ [last] := by simpa using hevs
      have := (List.append_inj' h2 rfl).1
      have hin : ev ∈ init := by rw [← this]; simp
      rw [hinit ev hin] at hf
      cases hf
  cases ho : (Walk z nf cf fuel d p c s).outcome with
  | timeout =>
    rw [ho] at hinv
    have := hinv ev hmem
    rw [hf] at this; cases this
  | returned err =>
    cases err with
    | none =>
      rw [ho] at hinv
      have := hinv ev hmem
      rw [hf] at this; cases this
    | some e' =>
      obtain ⟨h1, h2⟩ := key e' ho
      subst h1
      exact ⟨rfl, h2⟩

/-- The tree of the first test case with a node processor that fails at `/foo/bar`:
the walk returns that error and stops there, `/foo/baz` is never visited. -/
theorem Walk_aborts_at_first_error_witness :
    ((Walk memWalker (failAt "/foo/bar") AllChildren 5 0 "/" tree8 ()).outcome =
        .returned (some "boom") ∧ ([] : List Event) = []) ∧
    nodePaths (Walk memWalker (failAt "/foo/bar") AllChildren 5 0 "/" tree8 ()).events =
      ["/", "/foo", "/foo/bar"] ∧
    lsPaths (Walk memWalker (failAt "/foo/bar") AllChildren 5 0 "/" tree8 ()).events =
      ["/", "/foo"] :=
  ⟨Walk_aborts_at_first_error memWalker (failAt "/foo/bar") AllChildren 5 0 "/" tree8 ()
      ((Walk memWalker (failAt "/foo/bar") AllChildren 5 0 "/" tree8 ()).events.dropLast)
      [] ⟨2, .znodeRet "/foo/bar" false (some "boom")⟩ "/foo/bar" false [] "boom"
      (by decide) (Or.inl rfl),
    by decide, by decide⟩

end abort

section descent

variable {σ τ : Type}

theorem walkPathsAt_deeper_frame (d : Nat) (p : String) (z : ZkWalker σ) (prog : NodeProg τ)
    (c : σ) : walkPathsAt (d + 1) (nodeEvents d p (runZnodeFn z d p prog c)) = [] := by
  simp only [walkPathsAt, List.filterMap_eq_nil_iff]
  intro e he
  have hd := nodeEvents_depth d p z prog c e he
  have hne : ¬ e.depth = d + 1 := by omega
  cases e.call <;> simp [hne]

theorem callWalkChildren_depth_ge (z : ZkWalker σ) (nf : ZnodeProcessor τ)
    (cf : ChildrenProcessor τ) (fuel d : Nat) (p : String) (c : σ) (s : τ) :
    ∀ e ∈ (callWalkChildren z nf cf fuel d p c s).events, d + 1 ≤ e.depth :=
  walkChildren_depth_ge z nf cf fuel (d + 1) p _ _ _

/-- A frame with fuel is entered exactly once at its own depth. -/
theorem Walk_walkPathsAt (z : ZkWalker σ) (nf : ZnodeProcessor τ) (cf : ChildrenProcessor τ)
    (fuel d : Nat) (p : String) (c : σ) (s : τ) :
    walkPathsAt d (Walk z nf cf (fuel + 1) d p c s).events = [p] := by
  rcases Walk_cases z nf cf d p c s with ⟨e0, h⟩ | ⟨h, hs⟩ | ⟨h, hs, e0, hce⟩ | ⟨h, hs, hce⟩
  · rw [Walk_node_err z nf cf fuel d p c s e0 h]
    exact walkPathsAt_nodeEvents z d p _ c
  · rw [Walk_skip z nf cf fuel d p c s h hs]
    exact walkPathsAt_nodeEvents z d p _ c
  · rw [Walk_children_err z nf cf fuel d p c s e0 h hs hce]
    simp only [walkPathsAt_append, walkPathsAt_listEvents, List.append_nil]
    exact walkPathsAt_nodeEvents z d p _ c
  · rw [Walk_descend z nf cf fuel d p c s h hs hce]
    simp only [walkPathsAt_append, walkPathsAt_listEvents, List.append_nil]
    rw [walkPathsAt_deeper d (d + 1) _ (Nat.lt_succ_self d)
      (callWalkChildren_depth_ge z nf cf fuel d p c s), List.append_nil]
    exact walkPathsAt_nodeEvents z d p _ c

/-- The frames the loop enters are those of a prefix of the selected children, in
order; of all of them when the loop returns nil. -/
theorem walkChildren_walkPathsAt (z : ZkWalker σ) (nf : ZnodeProcessor τ)
    (cf : ChildrenProcessor τ) (fuel d : Nat) (p : String) (cs : List String) :
    ∀ (c : σ) (s : τ),
      walkPathsAt d (walkChildren (Walk z nf cf fuel d) p cs c s).events <+:
        cs.map (fun ch => Join [p, ch]) ∧
      ((walkChildren (Walk z nf cf fuel d) p cs c s).outcome = .returned none →
        walkPathsAt d (walkChildren (Walk z nf cf fuel d) p cs c s).events =
          cs.map (fun ch => Join [p, ch])) := by
  induction cs with
  | nil => intro c s; simp [walkChildren, walkPathsAt]
  | cons ch rest ih =>
    intro c s
    cases fuel with
    | zero =>
      have h : (Walk z nf cf 0 d (Join [p, ch]) c s).outcome ≠ .returned none := by
        simp [Walk]
      rw [walkChildren_cons_stop _ _ _ _ _ _ h]
      simp [Walk, walkPathsAt]
    | succ fuel =>
      by_cases h : (Walk z nf cf (fuel + 1) d (Join [p, ch]) c s).outcome = .returned none
      · rw [walkChildren_cons_ok _ _ _ _ _ _ h]
        simp only [walkPathsAt_append, Walk_walkPathsAt, List.map_cons, List.singleton_append]
        obtain ⟨h1, h2⟩ := ih (Walk z nf cf (fuel + 1) d (Join [p, ch]) c s).conn
          (Walk z nf cf (fuel + 1) d (Join [p, ch]) c s).pol
        refine ⟨?_, ?_⟩
        · obtain ⟨t, ht⟩ := h1
          exact ⟨t, by rw [List.cons_append, ht]⟩
        · intro ho; rw [h2 ho]
      · rw [walkChildren_cons_stop _ _ _ _ _ _ h]
        refine ⟨?_, fun ho => absurd ho h⟩
        rw [Walk_walkPathsAt]
        exact ⟨List.map (fun ch => Join [p, ch]) rest, rfl⟩

/-- Everything the loop emits is emitted by the walk of one of the selected
children: its trace is the concatenation of the traces of walks of a prefix of
them. -/
theorem walkChildren_runs (walk : String → σ → τ → Run σ τ) (p : String) (cs : List String) :
    ∀ (c : σ) (s : τ), ∃ runs : List (Run σ τ),
      (walkChildren walk p cs c s).events = (runs.map Run.events).flatten ∧
      List.Forall₂ (fun ch r => ∃ c1 s1, r = walk (Join [p, ch]) c1 s1)
        (cs.take runs.length) runs := by
  induction cs with
  | nil => intro c s; exact ⟨[], rfl, by simp⟩
  | cons ch rest ih =>
    intro c s
    by_cases h : (walk (Join [p, ch]) c s).outcome = .returned none
    · obtain ⟨runs, hev, hall⟩ := ih (walk (Join [p, ch]) c s).conn (walk (Join [p, ch]) c s).pol
      refine ⟨walk (Join [p, ch]) c s :: runs, ?_, ?_⟩
      · rw [walkChildren_cons_ok _ _ _ _ _ _ h]
        simp [hev]
      · simp only [List.length_cons, List.take_succ_cons]
        exact List.Forall₂.cons ⟨c, s, rfl⟩ hall
    · refine ⟨[walk (Join [p, ch]) c s], ?_, ?_⟩
      · rw [walkChildren_cons_stop _ _ _ _ _ _ h]; simp
      · simp only [List.length_singleton, List.take_succ_cons, List.take_zero]
        exact List.Forall₂.cons ⟨c, s, rfl⟩ List.Forall₂.nil

theorem eventsAt_Walk_frame (z : ZkWalker σ) (nf : ZnodeProcessor τ) (cf : ChildrenProcessor τ)
    (fuel d : Nat) (p : String) (c : σ) (s : τ)
    (h : (callZnodeFn z nf d p c s).err = none)
    (hs : (callZnodeFn z nf d p c s).skipChildren = false) :
    eventsAt d (Walk z nf cf (fuel + 1) d p c s).events =
      nodeEvents d p (callZnodeFn z nf d p c s) ++
        listEvents d p (callChildren z nf d p c s).1 (callChildrenFn z nf cf d p c s) := by
  have hown : eventsAt d (nodeEvents d p (callZnodeFn z nf d p c s) ++
      listEvents d p (callChildren z nf d p c s).1 (callChildrenFn z nf cf d p c s)) =
      nodeEvents d p (callZnodeFn z nf d p c s) ++
        listEvents d p (callChildren z nf d p c s).1 (callChildrenFn z nf cf d p c s) := by
    apply eventsAt_self
    intro e he
    rcases List.mem_append.1 he with he | he
    · exact nodeEvents_depth d p z _ c e he
    · exact listEvents_depth d p _ _ e he
  cases hce : (callChildrenFn z nf cf d p c s).err with
  | some e0 =>
    rw [Walk_children_err z nf cf fuel d p c s e0 h hs hce]
    exact hown
  | none =>
    rw [Walk_descend z nf cf fuel d p c s h hs hce]
    simp only []
    rw [eventsAt_append, hown, eventsAt_deeper d (d + 1) _ (Nat.lt_succ_self d)
      (callWalkChildren_depth_ge z nf cf fuel d p c s), List.append_nil]

end descent

section policy

variable {σ τ : Type}

theorem childrenFnCalls_nodeEvents (z : ZkWalker σ) (d : Nat) (p : String)
    (prog : NodeProg τ) (c : σ) :
    childrenFnCalls (nodeEvents d p (runZnodeFn z d p prog c)) = [] := by
  have h : childrenFnCalls (runZnodeFn z d p prog c).events = [] := by
    simp only [childrenFnCalls, List.filterMap_eq_nil_iff]
    intro e he
    rcases (runZnodeFn_events z d p prog c e he).2 with h | h | ⟨l, h⟩ | ⟨l, h⟩ <;> simp [h]
  simp only [childrenFnCalls] at h
  simp [childrenFnCalls, nodeEvents, List.filterMap_cons, List.filterMap_append, h]

theorem childrenFnCalls_listEvents (d : Nat) (p : String) (l : LsResult)
    (cr : ChildrenRet τ) :
    childrenFnCalls (listEvents d p l cr) = [.childrenFn p l.1 l.2.1 l.2.2] := by
  simp [childrenFnCalls, listEvents, List.filterMap_cons, List.filterMap_append]

/-- C8. For every client and every path `P` whose node processor returns
`(false, nil)`: the frame of `P` makes exactly one `Children` call, for `P`, and
calls the children processor exactly once, with `P` and with the names, metadata
and error that this `Children` call returned (whatever they are, a non-nil error
included); the events of the frame are those of the node processor call followed
by those of the listing, which end with what the children processor returned on
these arguments. The walk returns the error of the children processor when it
gives one, and otherwise runs the loop over the selected children and returns
what the loop returns: a listing error alone never ends the walk. -/
theorem Walk_hands_listing_to_policy (z : ZkWalker σ) (nf : ZnodeProcessor τ)
    (cf : ChildrenProcessor τ) (fuel d : Nat) (P : String) (c : σ) (s : τ)
    (hskip : (runZnodeFn z d P (nf P s) c).skipChildren = false)
    (herr : (runZnodeFn z d P (nf P s) c).err = none) :
    lsPaths (eventsAt d (Walk z nf cf (fuel + 1) d P c s).events) = [P] ∧
    childrenFnCalls (eventsAt d (Walk z nf cf (fuel + 1) d P c s).events) =
      [.childrenFn P (z.conn.Children P (runZnodeFn z d P (nf P s) c).conn).1.1
        (z.conn.Children P (runZnodeFn z d P (nf P s) c).conn).1.2.1
        (z.conn.Children P (runZnodeFn z d P (nf P s) c).conn).1.2.2] ∧
    eventsAt d (Walk z nf cf (fuel + 1) d P c s).events =
      nodeEvents d P (runZnodeFn z d P (nf P s) c) ++
        listEvents d P (z.conn.Children P (runZnodeFn z d P (nf P s) c).conn).1
          (cf P (z.conn.Children P (runZnodeFn z d P (nf P s) c).conn).1.1
            (z.conn.Children P (runZnodeFn z d P (nf P s) c).conn).1.2.1
            (z.conn.Children P (runZnodeFn z d P (nf P s) c).conn).1.2.2
            (runZnodeFn z d P (nf P s) c).pol) ∧
    (∀ e, (callChildrenFn z nf cf d P c s).err = some e →
      (Walk z nf cf (fuel + 1) d P c s).outcome = .returned (some e)) ∧
    ((callChildrenFn z nf cf d P c s).err = none →
      (Walk z nf cf (fuel + 1) d P c s).outcome =
        (callWalkChildren z nf cf fuel d P c s).outcome ∧
      (Walk z nf cf (fuel + 1) d P c s).events =
        eventsAt d (Walk z nf cf (fuel + 1) d P c s).events ++
          (callWalkChildren z nf cf fuel d P c s).events) := by
  have hframe := eventsAt_Walk_frame z nf cf fuel d P c s herr hskip
  refine ⟨?_, ?_, hframe, ?_, ?_⟩
  · rw [hframe]
    simp only [lsPaths, List.filterMap_append]
    have h1 := lsPaths_nodeEvents z d P (nf P s) c
    have h2 := lsPaths_listEvents d P (callChildren z nf d P c s).1
      (callChildrenFn z nf cf d P c s)
    simp only [lsPaths] at h1 h2
    simp only [callZnodeFn]
    rw [h1, h2]; rfl
  · rw [hframe]
    simp only [childrenFnCalls, List.filterMap_append]
    have h1 := childrenFnCalls_nodeEvents z d P (nf P s) c
    have h2 := childrenFnCalls_listEvents d P (callChildren z nf d P c s).1
      (callChildrenFn z nf cf d P c s)
    simp only [childrenFnCalls] at h1 h2
    simp only [callZnodeFn]
    rw [h1, h2]; rfl
  · intro e he
    rw [Walk_children_err z nf cf fuel d P c s e herr hskip he]
  · intro he
    rw [hframe, Walk_descend z nf cf fuel d P c s herr hskip he]
    exact ⟨rfl, rfl⟩

/-- A path that does not exist: the listing fails, `AllChildren` gets that error and
the walk returns nil. -/
theorem Walk_hands_listing_to_policy_witness :
    childrenFnCalls
        (eventsAt 0 (Walk memWalker noopZnodeProcessor AllChildren 1 0 "/nope" chain4 ()).events)
      = [.childrenFn "/nope" [] none (some "mem: non-existing znode /nope")] ∧
    (Walk memWalker noopZnodeProcessor AllChildren 1 0 "/nope" chain4 ()).outcome =
      .returned none :=
  ⟨(Walk_hands_listing_to_policy memWalker noopZnodeProcessor AllChildren 0 0 "/nope" chain4 ()
      rfl rfl).2.1, by decide⟩

end policy

section absorbed

variable {σ τ : Type}

theorem PrintZnodePathAndContent_fail (z : ZkWalker σ) (d : Nat) (P : String) (c : σ) (s : τ)
    (e : Err) (hget : (z.conn.Get P c).1.2.2 = some e) :
    (runZnodeFn z d P (PrintZnodePathAndContent P s) c).skipChildren = true ∧
    (runZnodeFn z d P (PrintZnodePathAndContent P s) c).err = none := by
  simp [PrintZnodePathAndContent, runZnodeFn, hget]

theorem PrintZnodePathAndContent_ok (z : ZkWalker σ) (d : Nat) (P : String) (c : σ) (s : τ)
    (hget : (z.conn.Get P c).1.2.2 = none) :
    (runZnodeFn z d P (PrintZnodePathAndContent P s) c).skipChildren = false ∧
    (runZnodeFn z d P (PrintZnodePathAndContent P s) c).err = none := by
  simp only [PrintZnodePathAndContent, runZnodeFn, hget]
  split <;> simp [runZnodeFn]

/-- The loop goes on after a child whose walk returned nil. -/
theorem walkChildren_after_ok (z : ZkWalker σ) (nf : ZnodeProcessor τ)
    (cf : ChildrenProcessor τ) (fuel d : Nat) (Q ch : String) (rest : List String) (c : σ)
    (s : τ) (h : (Walk z nf cf (fuel + 1) d (Join [Q, ch]) c s).outcome = .returned none) :
    (walkChildren (Walk z nf cf (fuel + 1) d) Q (ch :: rest) c s).events =
      (Walk z nf cf (fuel + 1) d (Join [Q, ch]) c s).events ++
        (walkChildren (Walk z nf cf (fuel + 1) d) Q rest
          (Walk z nf cf (fuel + 1) d (Join [Q, ch]) c s).conn
          (Walk z nf cf (fuel + 1) d (Join [Q, ch]) c s).pol).events ∧
    (walkChildren (Walk z nf cf (fuel + 1) d) Q (ch :: rest) c s).outcome =
      (walkChildren (Walk z nf cf (fuel + 1) d) Q rest
        (Walk z nf cf (fuel + 1) d (Join [Q, ch]) c s).conn
        (Walk z nf cf (fuel + 1) d (Join [Q, ch]) c s).pol).outcome ∧
    (∀ ch2 rest2, rest = ch2 :: rest2 →
      ∃ tl, walkPathsAt d (walkChildren (Walk z nf cf (fuel + 1) d) Q (ch :: rest) c s).events
        = Join [Q, ch] :: Join [Q, ch2] :: tl) ∧
    ((walkChildren (Walk z nf cf (fuel + 1) d) Q (ch :: rest) c s).outcome = .returned none →
      walkPathsAt d (walkChildren (Walk z nf cf (fuel + 1) d) Q (ch :: rest) c s).events =
        (ch :: rest).map (fun x => Join [Q, x])) := by
  refine ⟨?_, ?_, ?_, (walkChildren_walkPathsAt z nf cf (fuel + 1) d Q (ch :: rest) c s).2⟩
  · rw [walkChildren_cons_ok _ _ _ _ _ _ h]
  · rw [walkChildren_cons_ok _ _ _ _ _ _ h]
  · intro ch2 rest2 hrest
    subst hrest
    rw [walkChildren_cons_ok _ _ _ _ _ _ h]
    simp only [walkPathsAt_append, Walk_walkPathsAt, List.singleton_append]
    by_cases h2 : (Walk z nf cf (fuel + 1) d (Join [Q, ch2])
        (Walk z nf cf (fuel + 1) d (Join [Q, ch]) c s).conn
        (Walk z nf cf (fuel + 1) d (Join [Q, ch]) c s).pol).outcome = .returned none
    · rw [walkChildren_cons_ok _ _ _ _ _ _ h2]
      simp only [walkPathsAt_append, Walk_walkPathsAt, List.singleton_append]
      exact ⟨_, rfl⟩
    · rw [walkChildren_cons_stop _ _ _ _ _ _ h2, Walk_walkPathsAt]
      exact ⟨[], rfl⟩

/-- C7. With `PrintZnodePathAndContent` as node processor, for every client,
children processor and path `P`: if `Get` fails at `P`, the processor returns
`(true, nil)`, so `Walk(P)` returns nil with no `Children` call, no frame and no
node processor call other than that of `P`; and in the loop of a parent `Q` that
reaches `P` the walk goes on with the siblings that follow `P`, from the states
`Walk(P)` left: the next sibling is entered, and all of them are when the loop
returns nil. If `Get` succeeds at `P`, the processor returns `(false, nil)`. -/
theorem PrintZnodePathAndContent_absorbs_read_failure (z : ZkWalker σ)
    (cf : ChildrenProcessor τ) (fuel d : Nat) (P : String) (c : σ) (s : τ) :
    (∀ e, (z.conn.Get P c).1.2.2 = some e →
      ((runZnodeFn z d P (PrintZnodePathAndContent P s) c).skipChildren = true ∧
        (runZnodeFn z d P (PrintZnodePathAndContent P s) c).err = none) ∧
      ((Walk z PrintZnodePathAndContent cf (fuel + 1) d P c s).outcome = .returned none ∧
        lsPaths (Walk z PrintZnodePathAndContent cf (fuel + 1) d P c s).events = [] ∧
        walkPaths (Walk z PrintZnodePathAndContent cf (fuel + 1) d P c s).events = [P] ∧
        nodePaths (Walk z PrintZnodePathAndContent cf (fuel + 1) d P c s).events = [P]) ∧
      ∀ (Q ch : String) (rest : List String), Join [Q, ch] = P →
        (walkChildren (Walk z PrintZnodePathAndContent cf (fuel + 1) d) Q (ch :: rest) c s).events
          = (Walk z PrintZnodePathAndContent cf (fuel + 1) d P c s).events ++
            (walkChildren (Walk z PrintZnodePathAndContent cf (fuel + 1) d) Q rest
              (Walk z PrintZnodePathAndContent cf (fuel + 1) d P c s).conn
              (Walk z PrintZnodePathAndContent cf (fuel + 1) d P c s).pol).events ∧
        (walkChildren (Walk z PrintZnodePathAndContent cf (fuel + 1) d) Q (ch :: rest) c s).outcome
          = (walkChildren (Walk z PrintZnodePathAndContent cf (fuel + 1) d) Q rest
              (Walk z PrintZnodePathAndContent cf (fuel + 1) d P c s).conn
              (Walk z PrintZnodePathAndContent cf (fuel + 1) d P c s).pol).outcome ∧
        (∀ ch2 rest2, rest = ch2 :: rest2 →
          ∃ tl, walkPathsAt d
            (walkChildren (Walk z PrintZnodePathAndContent cf (fuel + 1) d) Q (ch :: rest) c
              s).events = P :: Join [Q, ch2] :: tl) ∧
        ((walkChildren (Walk z PrintZnodePathAndContent cf (fuel + 1) d) Q (ch :: rest) c
            s).outcome = .returned none →
          walkPathsAt d
            (walkChildren (Walk z PrintZnodePathAndContent cf (fuel + 1) d) Q (ch :: rest) c
              s).events = (ch :: rest).map (fun x => Join [Q, x]))) ∧
    ((z.conn.Get P c).1.2.2 = none →
      (runZnodeFn z d P (PrintZnodePathAndContent P s) c).skipChildren = false ∧
      (runZnodeFn z d P (PrintZnodePathAndContent P s) c).err = none) := by
  refine ⟨?_, PrintZnodePathAndContent_ok z d P c s⟩
  intro e hget
  have hrun := PrintZnodePathAndContent_fail z d P c s e hget
  have hW := Walk_skip_trace z PrintZnodePathAndContent cf fuel d P c s hrun.1 hrun.2
  refine ⟨hrun, ⟨hW.1, hW.2.1, hW.2.2.2.1, hW.2.2.2.2.1⟩, ?_⟩
  intro Q ch rest hP
  subst hP
  exact walkChildren_after_ok z PrintZnodePathAndContent cf fuel d Q ch rest c s hW.1

/-- A root that lists `ghost`, which cannot be read, and then `foo`: `/ghost` is
not listed, `/foo` is still visited and the walk returns nil. -/
theorem PrintZnodePathAndContent_absorbs_read_failure_witness :
    ((runZnodeFn memWalker 1 "/ghost" (PrintZnodePathAndContent "/ghost" ()) ghostChild
        ).skipChildren = true ∧
      (runZnodeFn memWalker 1 "/ghost" (PrintZnodePathAndContent "/ghost" ()) ghostChild
        ).err = none) ∧
    nodePaths (Walk memWalker PrintZnodePathAndContent AllChildren 5 0 "/" ghostChild ()).events
      = ["/", "/ghost", "/foo"] ∧
    lsPaths (Walk memWalker PrintZnodePathAndContent AllChildren 5 0 "/" ghostChild ()).events
      = ["/", "/foo"] ∧
    (Walk memWalker PrintZnodePathAndContent AllChildren 5 0 "/" ghostChild ()).outcome =
      .returned none :=
  ⟨((PrintZnodePathAndContent_absorbs_read_failure memWalker AllChildren 4 1 "/ghost"
      ghostChild ()).1 "mem: non-existing znode /ghost" (by decide)).1,
    by decide, by decide, by decide⟩

end absorbed

section preorderWalk

variable {σ τ : Type}

theorem nodePaths_append (a b : List Event) :
    nodePaths (a ++ b) = nodePaths a ++ nodePaths b := by
  simp [nodePaths]

theorem lsPaths_append (a b : List Event) : lsPaths (a ++ b) = lsPaths a ++ lsPaths b := by
  simp [lsPaths]

theorem nodePaths_frame (z : ZkWalker σ) (nf : ZnodeProcessor τ) (cf : ChildrenProcessor τ)
    (d : Nat) (p : String) (c : σ) (s : τ) :
    nodePaths (nodeEvents d p (callZnodeFn z nf d p c s) ++
      listEvents d p (callChildren z nf d p c s).1 (callChildrenFn z nf cf d p c s)) = [p] := by
  rw [nodePaths_append, nodePaths_listEvents, List.append_nil]
  exact nodePaths_nodeEvents z d p (nf p s) c

theorem lsPaths_frame (z : ZkWalker σ) (nf : ZnodeProcessor τ) (cf : ChildrenProcessor τ)
    (d : Nat) (p : String) (c : σ) (s : τ) :
    lsPaths (nodeEvents d p (callZnodeFn z nf d p c s) ++
      listEvents d p (callChildren z nf d p c s).1 (callChildrenFn z nf cf d p c s)) = [p] := by
  rw [lsPaths_append, lsPaths_listEvents]
  exact congrArg (· ++ [p]) (lsPaths_nodeEvents z d p (nf p s) c)

theorem runZnodeFn_stable (z : ZkWalker σ) (I : σ → Prop)
    (hget : ∀ p c, I c → I (z.conn.Get p c).2) (d : Nat) (p : String) (prog : NodeProg τ) :
    ∀ c, I c → I (runZnodeFn z d p prog c).conn := by
  induction prog with
  | ret skip err s => intro c hc; exact hc
  | znode k ih => intro c hc; exact ih _ _ (hget p c hc)
  | printf line k ih => intro c hc; exact ih c hc
  | logPrintf line k ih => intro c hc; exact ih c hc

/-- What the walk of a served tree does, for the tree and for the loop over the
children of a node. -/
theorem Walk_served (z : ZkWalker σ) (nf : ZnodeProcessor τ) (I : σ → Prop)
    (hget : ∀ p c, I c → I (z.conn.Get p c).2)
    (hls : ∀ p c, I c → I (z.conn.Children p c).2)
    (hnf : ∀ d p c s, (runZnodeFn z d p (nf p s) c).skipChildren = false ∧
      (runZnodeFn z d p (nf p s) c).err = none) (t : Tree) :
    ∀ (p : String) (d fuel : Nat) (c : σ) (s : τ), height t ≤ fuel → I c →
      Serves z.conn I p t →
      (Walk z nf AllChildren fuel d p c s).outcome = .returned none ∧
      nodePaths (Walk z nf AllChildren fuel d p c s).events = preorder p t ∧
      lsPaths (Walk z nf AllChildren fuel d p c s).events = preorder p t ∧
      I (Walk z nf AllChildren fuel d p c s).conn := by
  refine @Tree.rec
    (fun t => ∀ (p : String) (d fuel : Nat) (c : σ) (s : τ), height t ≤ fuel →
      I c → Serves z.conn I p t →
      (Walk z nf AllChildren fuel d p c s).outcome = .returned none ∧
      nodePaths (Walk z nf AllChildren fuel d p c s).events = preorder p t ∧
      lsPaths (Walk z nf AllChildren fuel d p c s).events = preorder p t ∧
      I (Walk z nf AllChildren fuel d p c s).conn)
    (fun cs => ∀ (p : String) (d fuel : Nat) (c : σ) (s : τ),
      heightAll cs ≤ fuel → I c → ServesAll z.conn I p cs →
      (walkChildren (Walk z nf AllChildren fuel d) p (cs.map Prod.fst) c s).outcome =
        .returned none ∧
      nodePaths (walkChildren (Walk z nf AllChildren fuel d) p (cs.map Prod.fst) c s).events =
        preorderAll p cs ∧
      lsPaths (walkChildren (Walk z nf AllChildren fuel d) p (cs.map Prod.fst) c s).events =
        preorderAll p cs ∧
      I (walkChildren (Walk z nf AllChildren fuel d) p (cs.map Prod.fst) c s).conn)
    (fun nt => ∀ (p : String) (d fuel : Nat) (c : σ) (s : τ),
      height nt.2 ≤ fuel → I c → Serves z.conn I p nt.2 →
      (Walk z nf AllChildren fuel d p c s).outcome = .returned none ∧
      nodePaths (Walk z nf AllChildren fuel d p c s).events = preorder p nt.2 ∧
      lsPaths (Walk z nf AllChildren fuel d p c s).events = preorder p nt.2 ∧
      I (Walk z nf AllChildren fuel d p c s).conn)
    ?_ ?_ ?_ ?_ t
  · -- a node
    intro cs ih p d fuel c s hfuel hI hserv
    simp only [height] at hfuel
    obtain ⟨f, rfl⟩ : ∃ f, fuel = f + 1 := ⟨fuel - 1, by omega⟩
    simp only [Serves] at hserv
    obtain ⟨hlist, hkids⟩ := hserv
    have hI1 : I (callZnodeFn z nf d p c s).conn := runZnodeFn_stable z I hget d p _ c hI
    obtain ⟨hnames, hnoerr⟩ := hlist _ hI1
    have hcr : callChildrenFn z nf AllChildren d p c s =
        ⟨[], cs.map Prod.fst, none, (callZnodeFn z nf d p c s).pol⟩ := by
      simp only [callChildrenFn, callChildren, AllChildren, hnoerr, hnames]
    have hW := Walk_descend z nf AllChildren f d p c s (hnf d p c s).2 (hnf d p c s).1
      (by rw [hcr])
    have hloop := ih p (d + 1) f (callChildren z nf d p c s).2 (callZnodeFn z nf d p c s).pol
      (by omega) (hls _ _ hI1) hkids
    have hcall : callWalkChildren z nf AllChildren f d p c s =
        walkChildren (Walk z nf AllChildren f (d + 1)) p (cs.map Prod.fst)
          (callChildren z nf d p c s).2 (callZnodeFn z nf d p c s).pol := by
      simp only [callWalkChildren, hcr]
    rw [hW, hcall]
    refine ⟨hloop.1, ?_, ?_, hloop.2.2.2⟩
    · simp only [preorder]
      rw [nodePaths_append, nodePaths_frame, hloop.2.1]; rfl
    · simp only [preorder]
      rw [lsPaths_append, lsPaths_frame, hloop.2.2.1]; rfl
  · -- no child
    intro p d fuel c s _ hI _
    exact ⟨rfl, rfl, rfl, hI⟩
  · -- a child and the children after it
    intro nt rest iht ihrest p d fuel c s hfuel hI hserv
    obtain ⟨name, t⟩ := nt
    simp only [heightAll] at hfuel
    simp only [ServesAll] at hserv
    obtain ⟨h1, h2, h3, h4⟩ := iht (Join [p, name]) d fuel c s
      (le_trans (le_max_left _ _) hfuel) hI hserv.1
    obtain ⟨r1, r2, r3, r4⟩ := ihrest p d fuel
      (Walk z nf AllChildren fuel d (Join [p, name]) c s).conn
      (Walk z nf AllChildren fuel d (Join [p, name]) c s).pol
      (le_trans (le_max_right _ _) hfuel) h4 hserv.2
    simp only [List.map_cons]
    rw [walkChildren_cons_ok _ _ _ _ _ _ h1]
    refine ⟨r1, ?_, ?_, r4⟩
    · simp only [preorderAll]
      rw [nodePaths_append, h2, r2]
    · simp only [preorderAll]
      rw [lsPaths_append, h3, r3]
  · -- a named child
    intro name t iht
    exact iht

/-- C1. For every finite tree `t` served by the client at the start path (in the
states the walk can reach, `Children` of the path of a node returns the names of
its children without error), every node processor that always returns
`(false, nil)` and `AllChildren`: with any recursion depth of at least the height
of the tree, `Walk` returns nil, and the paths handed to the node processor, like
the paths handed to `Children`, are the pre-order depth-first listing of the
tree, children left to right in listing order, each child path being
`path.Join(parent, name)`. -/
theorem Walk_preorder (z : ZkWalker σ) (nf : ZnodeProcessor τ) (I : σ → Prop) (t : Tree)
    (start : String) (d k : Nat) (c : σ) (s : τ)
    (hget : ∀ p c, I c → I (z.conn.Get p c).2)
    (hls : ∀ p c, I c → I (z.conn.Children p c).2)
    (hI : I c)
    (hserves : Serves z.conn I start t)
    (hnf : ∀ d p c s, (runZnodeFn z d p (nf p s) c).skipChildren = false ∧
      (runZnodeFn z d p (nf p s) c).err = none) :
    (Walk z nf AllChildren (height t + k) d start c s).outcome = .returned none ∧
    nodePaths (Walk z nf AllChildren (height t + k) d start c s).events = preorder start t ∧
    lsPaths (Walk z nf AllChildren (height t + k) d start c s).events = preorder start t := by
  obtain ⟨h1, h2, h3, _⟩ := Walk_served z nf I hget hls hnf t start d (height t + k) c s
    (Nat.le_add_right _ _) hI hserves
  exact ⟨h1, h2, h3⟩

end preorderWalk

theorem memConn_Get_children (p : String) (m : memZkClient) :
    (memConn.Get p m).2.children = m.children := by
  simp only [memConn, memZkClient.Get]
  split <;> rfl

theorem memConn_Children_children (p : String) (m : memZkClient) :
    (memConn.Children p m).2.children = m.children := by
  simp only [memConn, memZkClient.Children]
  split <;> rfl

theorem memConn_Children_lookup (m0 : memZkClient) (p : String) (names : List String)
    (h : m0.children.lookup p = some names) :
    ∀ m : memZkClient, m.children = m0.children →
      (memConn.Children p m).1.1 = names ∧ (memConn.Children p m).1.2.2 = none := by
  intro m hm
  simp only [memConn, memZkClient.Children, hm, h]
  exact ⟨trivial, trivial⟩

theorem tree8_Serves : Serves memConn (fun m => m.children = tree8.children) "/" tree8T := by
  simp only [tree8T, Serves, ServesAll, List.map_cons, List.map_nil, and_true]
  refine ⟨?_, ?_, ⟨?_, ?_, ?_⟩, ?_, ?_, ?_⟩ <;>
    exact memConn_Children_lookup tree8 _ _ (by decide)

/-- First test case: the tree of eight nodes, walked with `noopZnodeProcessor` and
`AllChildren`. -/
theorem Walk_preorder_witness :
    ((Walk memWalker noopZnodeProcessor AllChildren (height tree8T + 0) 0 "/" tree8 ()).outcome =
        .returned none ∧
      nodePaths
          (Walk memWalker noopZnodeProcessor AllChildren (height tree8T + 0) 0 "/" tree8 ()).events
        = preorder "/" tree8T ∧
      lsPaths
          (Walk memWalker noopZnodeProcessor AllChildren (height tree8T + 0) 0 "/" tree8 ()).events
        = preorder "/" tree8T) ∧
    preorder "/" tree8T =
      ["/", "/foo", "/foo/bar", "/foo/bar/aaa", "/foo/bar/bbb", "/foo/baz", "/foo/baz/xxx",
        "/foo/baz/yyy"] ∧
    (Walk memWalker noopZnodeProcessor AllChildren 4 0 "/" tree8 ()).conn.visitedLs =
      ["/", "/foo", "/foo/bar", "/foo/bar/aaa", "/foo/bar/bbb", "/foo/baz", "/foo/baz/xxx",
        "/foo/baz/yyy"] ∧
    (Walk memWalker noopZnodeProcessor AllChildren 4 0 "/" tree8 ()).conn.visitedGet = [] :=
  ⟨Walk_preorder memWalker noopZnodeProcessor (fun m => m.children = tree8.children) tree8T
      "/" 0 0 tree8 ()
      (fun p c h => (memConn_Get_children p c).trans h)
      (fun p c h => (memConn_Children_children p c).trans h)
      rfl tree8_Serves (fun _ _ _ _ => ⟨rfl, rfl⟩),
    by decide, by decide, by decide⟩

/-! ## `path.Clean` on absolute paths in cleaned form -/

theorem cleanLoop_nil (rooted : Bool) (fuel : Nat) (out : List Char) (dd : Nat) :
    cleanLoop rooted fuel [] out dd = out := by
  cases fuel <;> rfl

theorem cleanLoop_slash (rooted : Bool) (fuel : Nat) (rest out : List Char) (dd : Nat) :
    cleanLoop rooted (fuel + 1) ('/' :: rest) out dd = cleanLoop rooted fuel rest out dd := by
  simp [cleanLoop]

theorem takeWhile_elem (e rest : List Char) (he : '/' ∉ e) (hrest : atElemEnd rest = true) :
    (e ++ rest).takeWhile (· ≠ '/') = e ∧ (e ++ rest).dropWhile (· ≠ '/') = rest := by
  induction e with
  | nil =>
    cases rest with
    | nil => simp
    | cons c tl =>
      have hc : c = '/' := by simpa [atElemEnd] using hrest
      subst hc
      simp
  | cons x tl ih =>
    have hx : x ≠ '/' := fun h => he (by simp [h])
    have htl : '/' ∉ tl := fun h => he (by simp [h])
    have ih2 := ih htl
    simp_all [List.takeWhile_cons, List.dropWhile_cons]

theorem cleanLoop_elem (rooted : Bool) (fuel : Nat) (e rest out : List Char) (dd : Nat)
    (he : validElem e) (hrest : atElemEnd rest = true) :
    cleanLoop rooted (fuel + 1) (e ++ rest) out dd =
      cleanLoop rooted fuel rest
        (e.reverse ++
          (if (rooted ∧ out.length ≠ 1) ∨ (!rooted ∧ out.length ≠ 0) then '/' :: out else out))
        dd := by
  obtain ⟨hne, hslash, hdot, hdotdot⟩ := he
  obtain ⟨h1, h2⟩ := takeWhile_elem e rest hslash hrest
  cases e with
  | nil => exact absurd rfl hne
  | cons c tl =>
    have hc : c ≠ '/' := fun h => hslash (by simp [h])
    have htl : '/' ∉ tl := fun h => hslash (by simp [h])
    have hA : ¬ (c = '.' ∧ atElemEnd (tl ++ rest) = true) := by
      rintro ⟨rfl, hend⟩
      cases tl with
      | nil => exact hdot rfl
      | cons y tl2 =>
        have hy : y = '/' := by simpa [atElemEnd] using hend
        exact htl (by simp [hy])
    have hB : ¬ (c = '.' ∧ (tl ++ rest).head? = some '.' ∧
        atElemEnd ((tl ++ rest).drop 1) = true) := by
      rintro ⟨rfl, hhead, hend⟩
      cases tl with
      | nil =>
        cases rest with
        | nil => simp at hhead
        | cons y r2 =>
          have hy : y = '/' := by simpa [atElemEnd] using hrest
          subst hy
          simp at hhead
      | cons y tl2 =>
        have hy : y = '.' := by simpa using hhead
        subst hy
        cases tl2 with
        | nil => exact hdotdot rfl
        | cons w tl3 =>
          have hw : w = '/' := by simpa [atElemEnd] using hend
          exact htl (by simp [hw])
    have h1 : ((c :: (tl ++ rest)).takeWhile (· ≠ '/')) = c :: tl := by simpa using h1
    have h2 : ((c :: (tl ++ rest)).dropWhile (· ≠ '/')) = rest := by simpa using h2
    rw [List.cons_append, cleanLoop]
    simp only [hc, if_false, hA, hB, h1, h2]

theorem atElemEnd_flatten (segs : List (List Char)) :
    atElemEnd ((segs.map ('/' :: ·)).flatten) = true := by
  cases segs <;> simp [atElemEnd]

theorem rootedChars_length_pos (segs : List (List Char)) : 1 ≤ (rootedChars segs).length := by
  cases segs <;> simp [rootedChars]

theorem rootedChars_cons_length (d : List Char) (tl : List (List Char)) (hd : d ≠ []) :
    2 ≤ (rootedChars (d :: tl)).length := by
  have : 1 ≤ d.length := List.length_pos.2 hd
  simp only [rootedChars, List.map_cons, List.flatten_cons, List.length_append,
    List.length_cons]
  omega

theorem rootedChars_snoc (done : List (List Char)) (e : List Char)
    (hdone : ∀ x ∈ done, x ≠ []) :
    rootedChars (done ++ [e]) =
      (if (rootedChars done).length ≠ 1 then rootedChars done ++ ['/'] else rootedChars done)
        ++ e := by
  cases done with
  | nil => simp [rootedChars]
  | cons d tl =>
    have hlen : (rootedChars (d :: tl)).length ≠ 1 := by
      have := rootedChars_cons_length d tl (hdone d (by simp))
      omega
    rw [if_pos hlen]
    simp [rootedChars]

/-- The loop of `path.Clean` on the elements `segs`, each preceded by a `/`, after
the elements `done`: it writes them down as they are. -/
theorem cleanLoop_segs (segs : List (List Char)) :
    ∀ (done : List (List Char)) (fuel dd : Nat), 2 * segs.length ≤ fuel →
      (∀ x ∈ done, validElem x) → (∀ x ∈ segs, validElem x) →
      cleanLoop true fuel ((segs.map ('/' :: ·)).flatten) (rootedChars done).reverse dd =
        (rootedChars (done ++ segs)).reverse := by
  induction segs with
  | nil => intro done fuel dd _ _ _; simp [cleanLoop_nil]
  | cons e tl ih =>
    intro done fuel dd hfuel hdone hsegs
    obtain ⟨f, rfl⟩ : ∃ f, fuel = f + 2 := ⟨fuel - 2, by simp at hfuel; omega⟩
    have he : validElem e := hsegs e (by simp)
    simp only [List.map_cons, List.flatten_cons, List.cons_append]
    rw [cleanLoop_slash, cleanLoop_elem true f e _ _ dd he (atElemEnd_flatten tl)]
    have hout : (e.reverse ++
        (if (true = true ∧ (rootedChars done).reverse.length ≠ 1) ∨
            ((!true) = true ∧ (rootedChars done).reverse.length ≠ 0)
          then '/' :: (rootedChars done).reverse else (rootedChars done).reverse)) =
        (rootedChars (done ++ [e])).reverse := by
      rw [rootedChars_snoc done e (fun x hx => (hdone x hx).1)]
      by_cases h1 : (rootedChars done).length = 1
      · simp [h1]
      · simp [h1]
    rw [hout]
    have := ih (done ++ [e]) f dd (by simp at hfuel; omega)
      (by
        intro x hx
        rcases List.mem_append.1 hx with hx | hx
        · exact hdone x hx
        · simp at hx; subst hx; exact he)
      (fun x hx => hsegs x (by simp [hx]))
    rw [this, List.append_assoc]
    rfl

theorem flatten_slash_length (segs : List (List Char)) (h : ∀ x ∈ segs, x ≠ []) :
    2 * segs.length ≤ ((segs.map ('/' :: ·)).flatten).length := by
  induction segs with
  | nil => simp
  | cons e tl ih =>
    have h1 : 1 ≤ e.length := List.length_pos.2 (h e (by simp))
    have h2 := ih (fun x hx => h x (by simp [hx]))
    simp only [List.map_cons, List.flatten_cons, List.length_append, List.length_cons]
    omega

/-- `path.Clean` of a cleaned absolute path followed by `/` and one more element. -/
theorem cleanChars_rooted_snoc (segs : List (List Char)) (c : List Char)
    (hsegs : ∀ x ∈ segs, validElem x) (hc : validElem c) :
    cleanChars (rootedChars segs ++ '/' :: c) = rootedChars (segs ++ [c]) := by
  have hlen : ∀ l : List (List Char), (rootedChars l).reverse.length ≠ 0 := by
    intro l
    have := rootedChars_length_pos l
    simp only [List.length_reverse]; omega
  cases segs with
  | nil =>
    have h := cleanLoop_segs [c] [] (['/', '/'] ++ c).length 1
      (by simp) (by simp) (by simpa using hc)
    simp only [List.map_cons, List.map_nil, List.flatten_cons, List.flatten_nil,
      List.append_nil, List.nil_append] at h
    have h0 : (rootedChars ([] : List (List Char))).reverse = ['/'] := rfl
    rw [h0] at h
    simp only [cleanChars, rootedChars, List.cons_append, List.nil_append, List.head?_cons,
      List.drop_succ_cons, List.drop_zero, reduceCtorEq, if_false, if_true]
    simp only [List.cons_append, List.nil_append] at h
    rw [h]
    simp [rootedChars]
  | cons s tl =>
    have hs : validElem s := hsegs s (by simp)
    have htl : ∀ x ∈ tl ++ [c], validElem x := by
      intro x hx
      rcases List.mem_append.1 hx with hx | hx
      · exact hsegs x (by simp [hx])
      · simp at hx; subst hx; exact hc
    have hpath : rootedChars (s :: tl) ++ '/' :: c =
        '/' :: (s ++ (((tl ++ [c]).map ('/' :: ·)).flatten)) := by
      simp [rootedChars]
    have hfuel : 2 * (tl ++ [c]).length ≤
        ('/' :: (s ++ (((tl ++ [c]).map ('/' :: ·)).flatten))).length - 1 := by
      have := flatten_slash_length (tl ++ [c]) (fun x hx => (htl x hx).1)
      have e : ('/' :: (s ++ (((tl ++ [c]).map ('/' :: ·)).flatten))).length - 1 =
          s.length + (((tl ++ [c]).map ('/' :: ·)).flatten).length := by
        rw [List.length_cons, List.length_append, Nat.add_sub_cancel]
      rw [e]
      omega
    obtain ⟨f, hf⟩ : ∃ f, ('/' :: (s ++ (((tl ++ [c]).map ('/' :: ·)).flatten))).length = f + 1 :=
      ⟨_, rfl⟩
    rw [hf] at hfuel
    simp only [Nat.add_sub_cancel] at hfuel
    rw [hpath]
    simp only [cleanChars, List.head?_cons, List.drop_succ_cons, List.drop_zero, reduceCtorEq,
      if_false, if_true]
    rw [hf, cleanLoop_elem true f s _ ['/'] 1 hs (atElemEnd_flatten _)]
    have hout : (s.reverse ++
        (if (true = true ∧ ['/'].length ≠ 1) ∨ ((!true) = true ∧ ['/'].length ≠ 0)
          then '/' :: ['/'] else ['/'])) = (rootedChars [s]).reverse := by
      simp [rootedChars]
    rw [hout, cleanLoop_segs (tl ++ [c]) [s] f 1 hfuel (by simpa using hs) htl]
    have := hlen ([s] ++ (tl ++ [c]))
    simp only [this, if_false, List.reverse_reverse]
    simp

theorem rootedPath_data (segs : List String) :
    (rootedPath segs).data = rootedChars (segs.map String.data) := rfl

theorem rootedPath_length_pos (segs : List String) : 1 ≤ (rootedPath segs).length := by
  simp only [String.length, rootedPath_data]
  exact rootedChars_length_pos _

/-- `path.Join` of a cleaned absolute path and a valid name appends the name. -/
theorem Join_rootedPath (segs : List String) (c : String)
    (hsegs : ∀ x ∈ segs, validName x) (hc : validName c) :
    Join [rootedPath segs, c] = rootedPath (segs ++ [c]) := by
  have hpos := rootedPath_length_pos segs
  have hne : rootedPath segs ≠ "" := by
    intro h; rw [h] at hpos; simp at hpos
  have hsum : ¬ ((([rootedPath segs, c].map String.length).sum) = 0) := by
    simp only [List.map_cons, List.map_nil, List.sum_cons, List.sum_nil]
    omega
  have hbuf : joinBuf [] [rootedPath segs, c] = (rootedPath segs).data ++ '/' :: c.data := by
    have hl : 0 < (rootedPath segs).length := hpos
    simp [joinBuf, hl, hne]
  simp only [Join, hsum, if_false, Clean, hbuf, rootedPath_data]
  rw [cleanChars_rooted_snoc _ _ (by
    intro x hx
    obtain ⟨y, hy, rfl⟩ := List.mem_map.1 hx
    exact hsegs y hy) hc]
  simp [rootedPath]

theorem rootedPath_snoc_length (segs : List String) (c : String)
    (hsegs : ∀ x ∈ segs, validName x) (hc : validName c) :
    (rootedPath segs).length < (rootedPath (segs ++ [c])).length := by
  have h1 : 1 ≤ c.data.length := List.length_pos.2 hc.1
  have h2 : 1 ≤ c.length := h1
  simp only [String.length, rootedPath_data, List.map_append, List.map_cons, List.map_nil]
  rw [rootedChars_snoc _ _ (by
    intro x hx
    obtain ⟨y, hy, rfl⟩ := List.mem_map.1 hx
    exact (hsegs y hy).1)]
  split
  · simp
  · simp; omega

/-- Along a recursion chain that starts at a cleaned absolute path and goes down
through valid names, every path is strictly longer than those before it. -/
theorem descent_lengths (names : List String) :
    ∀ segs : List String, (∀ x ∈ segs, validName x) → (∀ x ∈ names, validName x) →
      (descent (rootedPath segs) names).Pairwise (fun a b => a.length < b.length) ∧
      ∀ b ∈ descent (rootedPath segs) names, (rootedPath segs).length ≤ b.length := by
  induction names with
  | nil => intro segs _ _; simp [descent]
  | cons c tl ih =>
    intro segs hsegs hnames
    have hc : validName c := hnames c (by simp)
    have hsegs2 : ∀ x ∈ segs ++ [c], validName x := by
      intro x hx
      rcases List.mem_append.1 hx with hx | hx
      · exact hsegs x hx
      · simp at hx; subst hx; exact hc
    obtain ⟨h1, h2⟩ := ih (segs ++ [c]) hsegs2 (fun x hx => hnames x (by simp [hx]))
    have hlt := rootedPath_snoc_length segs c hsegs hc
    simp only [descent, Join_rootedPath segs c hsegs hc, List.pairwise_cons, List.mem_cons]
    refine ⟨⟨fun b hb => lt_of_lt_of_le hlt (h2 b hb), h1⟩, ?_⟩
    rintro b (rfl | hb)
    · exact le_refl _
    · exact le_of_lt (lt_of_lt_of_le hlt (h2 b hb))

section lengthen

variable {σ τ : Type}

/-- The frames entered one level below a frame are entered with the paths of a
prefix of the children its children processor selects. -/
theorem Walk_below_prefix (z : ZkWalker σ) (nf : ZnodeProcessor τ) (cf : ChildrenProcessor τ)
    (fuel d : Nat) (P : String) (c : σ) (s : τ) :
    walkPathsAt (d + 1) (Walk z nf cf fuel d P c s).events <+:
      (callChildrenFn z nf cf d P c s).children.map (fun ch => Join [P, ch]) := by
  have hnode : walkPathsAt (d + 1) (nodeEvents d P (callZnodeFn z nf d P c s)) = [] :=
    walkPathsAt_deeper_frame d P z (nf P s) c
  cases fuel with
  | zero => simp [Walk, walkPathsAt]
  | succ fuel =>
    rcases Walk_cases z nf cf d P c s with ⟨e0, h⟩ | ⟨h, hs⟩ | ⟨h, hs, e0, hce⟩ | ⟨h, hs, hce⟩
    · rw [Walk_node_err z nf cf fuel d P c s e0 h]
      simp only [hnode]; exact List.nil_prefix
    · rw [Walk_skip z nf cf fuel d P c s h hs]
      simp only [hnode]; exact List.nil_prefix
    · rw [Walk_children_err z nf cf fuel d P c s e0 h hs hce]
      simp only [walkPathsAt_append, hnode, walkPathsAt_listEvents, List.append_nil]
      exact List.nil_prefix
    · rw [Walk_descend z nf cf fuel d P c s h hs hce]
      simp only [walkPathsAt_append, hnode, walkPathsAt_listEvents, List.nil_append]
      exact (walkChildren_walkPathsAt z nf cf fuel (d + 1) P _ _ _).1

theorem walk_mem_nodeEvents (z : ZkWalker σ) (d : Nat) (p : String) (prog : NodeProg τ) (c : σ)
    (e : Event) (q : String) (he : e ∈ nodeEvents d p (runZnodeFn z d p prog c))
    (hq : e.call = .walk q) : e.depth = d ∧ q = p := by
  refine ⟨nodeEvents_depth d p z prog c e he, ?_⟩
  simp only [nodeEvents, List.mem_cons, List.mem_append, List.mem_singleton,
    List.not_mem_nil, or_false] at he
  rcases he with rfl | rfl | he | rfl
  · simpa using hq.symm
  · simp at hq
  · rcases (runZnodeFn_events z d p prog c e he).2 with h | h | ⟨l, h⟩ | ⟨l, h⟩ <;>
      simp [h] at hq
  · simp at hq

theorem walk_not_mem_listEvents (d : Nat) (p : String) (l : LsResult) (cr : ChildrenRet τ)
    (e : Event) (q : String) (he : e ∈ listEvents d p l cr) : e.call ≠ .walk q := by
  simp only [listEvents, List.mem_cons, List.mem_append, List.mem_map, List.mem_singleton,
    List.not_mem_nil, or_false] at he
  rcases he with rfl | rfl | ⟨line, _, rfl⟩ | rfl <;> simp

/-- In a walk that starts at a cleaned absolute path, with a children processor
that only ever selects valid names, the frame entered at `k` levels below the
start has the path of the start with `k` valid elements appended. -/
theorem Walk_paths_rooted (z : ZkWalker σ) (nf : ZnodeProcessor τ) (cf : ChildrenProcessor τ)
    (hcf : ∀ p names st err s, ∀ ch ∈ (cf p names st err s).children, validName ch)
    (fuel : Nat) :
    ∀ (d : Nat) (segs : List String) (c : σ) (s : τ), (∀ x ∈ segs, validName x) →
      ∀ e ∈ (Walk z nf cf fuel d (rootedPath segs) c s).events, ∀ q, e.call = .walk q →
        ∃ ns : List String, d + ns.length = e.depth ∧ (∀ x ∈ ns, validName x) ∧
          q = rootedPath (segs ++ ns) := by
  induction fuel with
  | zero => intro d segs c s _ e he; simp [Walk] at he
  | succ fuel ih =>
    intro d segs c s hsegs e he q hq
    have hown : e ∈ nodeEvents d (rootedPath segs) (callZnodeFn z nf d (rootedPath segs) c s) →
        ∃ ns : List String, d + ns.length = e.depth ∧ (∀ x ∈ ns, validName x) ∧
          q = rootedPath (segs ++ ns) := by
      intro h
      obtain ⟨h1, h2⟩ := walk_mem_nodeEvents z d _ _ c e q h hq
      exact ⟨[], by simp [h1], by simp, by simp [h2]⟩
    have hloop : ∀ (cs : List String), (∀ ch ∈ cs, validName ch) → ∀ (c : σ) (s : τ),
        ∀ e ∈ (walkChildren (Walk z nf cf fuel (d + 1)) (rootedPath segs) cs c s).events,
        ∀ q, e.call = .walk q →
          ∃ ns : List String, d + ns.length = e.depth ∧ (∀ x ∈ ns, validName x) ∧
            q = rootedPath (segs ++ ns) := by
      intro cs
      induction cs with
      | nil => intro _ c s e he; simp [walkChildren] at he
      | cons ch rest ihl =>
        intro hcs c s e he q hq
        have hch : validName ch := hcs ch (by simp)
        have hsegs2 : ∀ x ∈ segs ++ [ch], validName x := by
          intro x hx
          rcases List.mem_append.1 hx with hx | hx
          · exact hsegs x hx
          · simp at hx; subst hx; exact hch
        have hchild : e ∈ (Walk z nf cf fuel (d + 1) (Join [rootedPath segs, ch]) c s).events →
            ∃ ns : List String, d + ns.length = e.depth ∧ (∀ x ∈ ns, validName x) ∧
              q = rootedPath (segs ++ ns) := by
          intro h
          rw [Join_rootedPath segs ch hsegs hch] at h
          obtain ⟨ns, h1, h2, h3⟩ := ih (d + 1) (segs ++ [ch]) c s hsegs2 e h q hq
          refine ⟨ch :: ns, ?_, ?_, ?_⟩
          · simp only [List.length_cons]; omega
          · intro x hx
            rcases List.mem_cons.1 hx with rfl | hx
            · exact hch
            · exact h2 x hx
          · rw [h3, List.append_assoc]; rfl
        by_cases h : (Walk z nf cf fuel (d + 1) (Join [rootedPath segs, ch]) c s).outcome =
            .returned none
        · rw [walkChildren_cons_ok _ _ _ _ _ _ h] at he
          rcases List.mem_append.1 he with he | he
          · exact hchild he
          · exact ihl (fun x hx => hcs x (by simp [hx])) _ _ e he q hq
        · rw [walkChildren_cons_stop _ _ _ _ _ _ h] at he
          exact hchild he
    rcases Walk_cases z nf cf d (rootedPath segs) c s with
      ⟨e0, h⟩ | ⟨h, hs⟩ | ⟨h, hs, e0, hce⟩ | ⟨h, hs, hce⟩
    · rw [Walk_node_err z nf cf fuel d _ c s e0 h] at he
      exact hown he
    · rw [Walk_skip z nf cf fuel d _ c s h hs] at he
      exact hown he
    · rw [Walk_children_err z nf cf fuel d _ c s e0 h hs hce] at he
      rcases List.mem_append.1 he with he | he
      · exact hown he
      · exact absurd hq (walk_not_mem_listEvents d _ _ _ e q he)
    · rw [Walk_descend z nf cf fuel d _ c s h hs hce] at he
      simp only [List.mem_append] at he
      rcases he with (he | he) | he
      · exact hown he
      · exact absurd hq (walk_not_mem_listEvents d _ _ _ e q he)
      · exact hloop _ (hcf _ _ _ _ _) _ _ e he q hq

/-- The client whose root lists `.`: the walk never returns, whatever the fuel. -/
theorem dotChild_timeout (fuel : Nat) : ∀ (d : Nat) (m : memZkClient),
    m.children = dotChild.children →
    (Walk memWalker (noopZnodeProcessor : ZnodeProcessor Unit) AllChildren fuel d "/" m ()).outcome =
      .timeout := by
  induction fuel with
  | zero => intro d m _; rfl
  | succ fuel ih =>
    intro d m hm
    have hl : (memConn.Children "/" m).1 = (["."], none, none) := by
      simp only [memConn, memZkClient.Children, hm]
      rfl
    have hl2 : (memConn.Children "/" m).2.children = dotChild.children :=
      (memConn_Children_children "/" m).trans hm
    have hcr : callChildrenFn memWalker (noopZnodeProcessor : ZnodeProcessor Unit) AllChildren d "/" m ()
        = ⟨[], ["."], none, ()⟩ := by
      have h0 : callChildrenFn memWalker (noopZnodeProcessor : ZnodeProcessor Unit) AllChildren d "/" m ()
          = AllChildren "/" (memConn.Children "/" m).1.1 (memConn.Children "/" m).1.2.1
            (memConn.Children "/" m).1.2.2 () := rfl
      rw [h0, hl]
      rfl
    have hW := Walk_descend memWalker (noopZnodeProcessor : ZnodeProcessor Unit) AllChildren fuel d "/" m ()
      rfl rfl (by rw [hcr])
    rw [hW]
    simp only [callWalkChildren, hcr]
    have hj : Join ["/", "."] = "/" := by decide
    have hstop : (Walk memWalker (noopZnodeProcessor : ZnodeProcessor Unit) AllChildren fuel (d + 1)
        (Join ["/", "."]) (callChildren memWalker (noopZnodeProcessor : ZnodeProcessor Unit) d "/" m ()).2
        ()).outcome = .timeout := by
      rw [hj]
      exact ih (d + 1) _ hl2
    rw [walkChildren_cons_stop _ _ _ _ _ _ (by rw [hstop]; simp)]
    exact hstop

end lengthen

/-- Names and start paths with which `path.Join(P, c)` is not longer than `P`, and
a walk that visits `/` again and again: the root lists `.`, and with every fuel
the walk runs out of it. -/
theorem Join_shortens_and_walk_cycles :
    Join ["/foo", ".."] = "/" ∧ Join ["/foo", "."] = "/foo" ∧ Join ["/foo", ""] = "/foo" ∧
    Join ["/foo", "bar/../.."] = "/" ∧ Join ["//", "a"] = "/a" ∧ Join [".", "a"] = "a" ∧
    nodePaths (Walk memWalker (noopZnodeProcessor : ZnodeProcessor Unit) AllChildren 4 0 "/" dotChild
      ()).events = ["/", "/", "/", "/"] ∧
    (∀ fuel, (Walk memWalker (noopZnodeProcessor : ZnodeProcessor Unit) AllChildren fuel 0 "/" dotChild
      ()).outcome = .timeout) :=
  ⟨by decide, by decide, by decide, by decide, by decide, by decide, by decide,
    fun fuel => dotChild_timeout fuel 0 dotChild rfl⟩

section lengthen2

variable {σ τ : Type}

theorem rootedPath_append_length (ns : List String) :
    ∀ segs : List String, (∀ x ∈ segs, validName x) → (∀ x ∈ ns, validName x) →
      (rootedPath segs).length + ns.length ≤ (rootedPath (segs ++ ns)).length := by
  induction ns with
  | nil => intro segs _ _; simp
  | cons n tl ih =>
    intro segs hsegs hns
    have hn : validName n := hns n (by simp)
    have hsegs2 : ∀ x ∈ segs ++ [n], validName x := by
      intro x hx
      rcases List.mem_append.1 hx with hx | hx
      · exact hsegs x hx
      · simp at hx; subst hx; exact hn
    have h1 := rootedPath_snoc_length segs n hsegs hn
    have h2 := ih (segs ++ [n]) hsegs2 (fun x hx => hns x (by simp [hx]))
    rw [List.append_assoc] at h2
    simp only [List.length_cons]
    simp only [List.singleton_append] at h2
    omega

/-- C9, as amended. Let `P` be an absolute path in cleaned form (`/`, or
`/s1/.../sn` with valid elements) and let the names be valid znode names (not
empty, without `/`, neither `.` nor `..`). Then `path.Join(P, c)` is `P` with the
element `c` appended and is strictly longer than `P`; along the recursion chain
from `P` down through such names every path is strictly longer than all those
before it, so none comes twice; when the children processor selects only valid
names at `P`, every frame `Walk(P)` enters one level below has a path that is `P`
with one valid element appended, strictly longer than `P`; and when it selects
only valid names everywhere, the frame entered `k` levels below `P` has the path
of `P` with `k` valid elements appended, longer than `P` by at least `k`. -/
theorem valid_names_lengthen_paths (z : ZkWalker σ) (nf : ZnodeProcessor τ)
    (cf : ChildrenProcessor τ) (fuel d : Nat) (c : σ) (s : τ) (segs names : List String)
    (hsegs : ∀ x ∈ segs, validName x) (hnames : ∀ x ∈ names, validName x)
    (hsel : ∀ ch ∈ (callChildrenFn z nf cf d (rootedPath segs) c s).children, validName ch) :
    (∀ ch, validName ch →
      Join [rootedPath segs, ch] = rootedPath (segs ++ [ch]) ∧
      (rootedPath segs).length < (Join [rootedPath segs, ch]).length) ∧
    (descent (rootedPath segs) names).Pairwise (fun a b => a.length < b.length) ∧
    (descent (rootedPath segs) names).Nodup ∧
    (∀ q ∈ walkPathsAt (d + 1) (Walk z nf cf fuel d (rootedPath segs) c s).events,
      (rootedPath segs).length < q.length ∧
      ∃ ch, validName ch ∧ q = rootedPath (segs ++ [ch])) ∧
    ((∀ p lsChildren lsStat lsErr s1, ∀ ch ∈ (cf p lsChildren lsStat lsErr s1).children,
        validName ch) →
      ∀ e ∈ (Walk z nf cf fuel d (rootedPath segs) c s).events, ∀ q, e.call = .walk q →
        ∃ ns : List String, d + ns.length = e.depth ∧ (∀ x ∈ ns, validName x) ∧
          q = rootedPath (segs ++ ns) ∧
          (rootedPath segs).length + ns.length ≤ q.length) := by
  have hpair := (descent_lengths names segs hsegs hnames).1
  refine ⟨?_, hpair, ?_, ?_, ?_⟩
  · intro ch hch
    rw [Join_rootedPath segs ch hsegs hch]
    exact ⟨rfl, rootedPath_snoc_length segs ch hsegs hch⟩
  · exact hpair.imp (fun h => by intro heq; rw [heq] at h; exact lt_irrefl _ h)
  · intro q hq
    have hpre := Walk_below_prefix z nf cf fuel d (rootedPath segs) c s
    have hmem := hpre.subset hq
    obtain ⟨ch, hch, rfl⟩ := List.mem_map.1 hmem
    have hv := hsel ch hch
    rw [Join_rootedPath segs ch hsegs hv]
    exact ⟨rootedPath_snoc_length segs ch hsegs hv, ch, hv, rfl⟩
  · intro hcf e he q hq
    obtain ⟨ns, h1, h2, h3⟩ := Walk_paths_rooted z nf cf hcf fuel d segs c s hsegs e he q hq
    exact ⟨ns, h1, h2, h3, by rw [h3]; exact rootedPath_append_length ns segs hsegs h2⟩

/-- The tree of the first test case from `/foo` down through `bar` and `aaa`. -/
theorem valid_names_lengthen_paths_witness :
    (descent (rootedPath ["foo"]) ["bar", "aaa"]).Pairwise (fun a b => a.length < b.length) ∧
    descent (rootedPath ["foo"]) ["bar", "aaa"] = ["/foo", "/foo/bar", "/foo/bar/aaa"] ∧
    walkPathsAt 1 (Walk memWalker (noopZnodeProcessor : ZnodeProcessor Unit) AllChildren 4 0
      (rootedPath ["foo"]) tree8 ()).events = ["/foo/bar", "/foo/baz"] :=
  ⟨(valid_names_lengthen_paths memWalker (noopZnodeProcessor : ZnodeProcessor Unit) AllChildren 4 0 tree8
      () ["foo"] ["bar", "aaa"] (by decide) (by decide) (by decide)).2.1,
    by decide, by decide⟩

end lengthen2

/-! ## Filtering: what a walk can reach below a selection -/

theorem flatten_slash_inj (a : List (List Char)) :
    ∀ b : List (List Char), (∀ x ∈ a, '/' ∉ x) → (∀ x ∈ b, '/' ∉ x) →
      (a.map ('/' :: ·)).flatten = (b.map ('/' :: ·)).flatten → a = b := by
  induction a with
  | nil =>
    intro b _ _ h
    cases b with
    | nil => rfl
    | cons y tl => simp at h
  | cons x tl ih =>
    intro b ha hb h
    cases b with
    | nil => simp at h
    | cons y tl2 =>
      simp only [List.map_cons, List.flatten_cons, List.cons_append, List.cons.injEq,
        true_and] at h
      have hx := (takeWhile_elem x _ (ha x (by simp)) (atElemEnd_flatten tl)).1
      have hy := (takeWhile_elem y _ (hb y (by simp)) (atElemEnd_flatten tl2)).1
      rw [h, hy] at hx
      subst hx
      have htl := List.append_cancel_left h
      rw [ih tl2 (fun z hz => ha z (by simp [hz])) (fun z hz => hb z (by simp [hz])) htl]

theorem rootedChars_inj (a b : List (List Char)) (ha : ∀ x ∈ a, validElem x)
    (hb : ∀ x ∈ b, validElem x) (h : rootedChars a = rootedChars b) : a = b := by
  cases a with
  | nil =>
    cases b with
    | nil => rfl
    | cons y tl =>
      have := rootedChars_cons_length y tl (hb y (by simp)).1
      rw [← h] at this
      simp [rootedChars] at this
  | cons x tl =>
    cases b with
    | nil =>
      have := rootedChars_cons_length x tl (ha x (by simp)).1
      rw [h] at this
      simp [rootedChars] at this
    | cons y tl2 =>
      exact flatten_slash_inj _ _ (fun z hz => (ha z hz).2.1) (fun z hz => (hb z hz).2.1) h

theorem rootedPath_inj (a b : List String) (ha : ∀ x ∈ a, validName x)
    (hb : ∀ x ∈ b, validName x) (h : rootedPath a = rootedPath b) : a = b := by
  have h1 : rootedChars (a.map String.data) = rootedChars (b.map String.data) :=
    congrArg String.data h
  have h2 := rootedChars_inj _ _
    (by
      intro x hx
      obtain ⟨y, hy, rfl⟩ := List.mem_map.1 hx
      exact ha y hy)
    (by
      intro x hx
      obtain ⟨y, hy, rfl⟩ := List.mem_map.1 hx
      exact hb y hy) h1
  exact List.map_injective_iff.2 (fun x y hxy => String.ext hxy) h2

section selection

variable {σ τ : Type}

theorem path_mem_nodeEvents (z : ZkWalker σ) (d : Nat) (p : String) (prog : NodeProg τ) (c : σ)
    (e : Event) (q : String) (he : e ∈ nodeEvents d p (runZnodeFn z d p prog c))
    (hq : e.call = .walk q ∨ e.call = .znodeFn q ∨ e.call = .ls q) : q = p := by
  simp only [nodeEvents, List.mem_cons, List.mem_append, List.mem_singleton,
    List.not_mem_nil, or_false] at he
  rcases he with rfl | rfl | he | rfl
  · simp at hq; exact hq.symm
  · simp at hq; exact hq.symm
  · rcases (runZnodeFn_events z d p prog c e he).2 with h | h | ⟨l, h⟩ | ⟨l, h⟩ <;>
      simp [h] at hq
  · simp at hq

theorem path_mem_listEvents (d : Nat) (p : String) (l : LsResult) (cr : ChildrenRet τ)
    (e : Event) (q : String) (he : e ∈ listEvents d p l cr)
    (hq : e.call = .walk q ∨ e.call = .znodeFn q ∨ e.call = .ls q) : q = p := by
  simp only [listEvents, List.mem_cons, List.mem_append, List.mem_map, List.mem_singleton,
    List.not_mem_nil, or_false] at he
  rcases he with rfl | rfl | ⟨line, _, rfl⟩ | rfl
  · simp at hq; exact hq.symm
  · simp at hq
  · simp at hq
  · simp at hq

/-- In a walk that starts at a cleaned absolute path `P`, with a children processor
that only ever selects valid names, every path a frame is entered with, the node
processor is called with or `Children` is called with is `P` itself or `P` with a
name selected at `P` and then further valid names appended. -/
theorem Walk_paths_selected (z : ZkWalker σ) (nf : ZnodeProcessor τ) (cf : ChildrenProcessor τ)
    (hcf : ∀ p names st err s, ∀ ch ∈ (cf p names st err s).children, validName ch)
    (fuel : Nat) :
    ∀ (d : Nat) (segs : List String) (c : σ) (s : τ), (∀ x ∈ segs, validName x) →
      ∀ e ∈ (Walk z nf cf fuel d (rootedPath segs) c s).events, ∀ q,
        (e.call = .walk q ∨ e.call = .znodeFn q ∨ e.call = .ls q) →
          q = rootedPath segs ∨
          ∃ ch ns, ch ∈ (callChildrenFn z nf cf d (rootedPath segs) c s).children ∧
            validName ch ∧ (∀ x ∈ ns, validName x) ∧ q = rootedPath (segs ++ ch :: ns) := by
  induction fuel with
  | zero => intro d segs c s _ e he; simp [Walk] at he
  | succ fuel ih =>
    intro d segs c s hsegs e he q hq
    have hloop : ∀ (cs : List String), (∀ ch ∈ cs, validName ch) → ∀ (c : σ) (s : τ),
        ∀ e ∈ (walkChildren (Walk z nf cf fuel (d + 1)) (rootedPath segs) cs c s).events,
        ∀ q, (e.call = .walk q ∨ e.call = .znodeFn q ∨ e.call = .ls q) →
          ∃ ch ns, ch ∈ cs ∧ validName ch ∧ (∀ x ∈ ns, validName x) ∧
            q = rootedPath (segs ++ ch :: ns) := by
      intro cs
      induction cs with
      | nil => intro _ c s e he; simp [walkChildren] at he
      | cons ch rest ihl =>
        intro hcs c s e he q hq
        have hch : validName ch := hcs ch (by simp)
        have hsegs2 : ∀ x ∈ segs ++ [ch], validName x := by
          intro x hx
          rcases List.mem_append.1 hx with hx | hx
          · exact hsegs x hx
          · simp at hx; subst hx; exact hch
        have hchild : e ∈ (Walk z nf cf fuel (d + 1) (Join [rootedPath segs, ch]) c s).events →
            ∃ ch1 ns, ch1 ∈ ch :: rest ∧ validName ch1 ∧ (∀ x ∈ ns, validName x) ∧
              q = rootedPath (segs ++ ch1 :: ns) := by
          intro h
          rw [Join_rootedPath segs ch hsegs hch] at h
          rcases ih (d + 1) (segs ++ [ch]) c s hsegs2 e h q hq with h1 | ⟨ch2, ns, h1, h2, h3, h4⟩
          · exact ⟨ch, [], by simp, hch, by simp, h1⟩
          · refine ⟨ch, ch2 :: ns, by simp, hch, ?_, ?_⟩
            · intro x hx
              rcases List.mem_cons.1 hx with rfl | hx
              · exact h2
              · exact h3 x hx
            · rw [h4, List.append_assoc]; rfl
        by_cases h : (Walk z nf cf fuel (d + 1) (Join [rootedPath segs, ch]) c s).outcome =
            .returned none
        · rw [walkChildren_cons_ok _ _ _ _ _ _ h] at he
          rcases List.mem_append.1 he with he | he
          · exact hchild he
          · obtain ⟨ch1, ns, h1, h2, h3, h4⟩ :=
              ihl (fun x hx => hcs x (by simp [hx])) _ _ e he q hq
            exact ⟨ch1, ns, by simp [h1], h2, h3, h4⟩
        · rw [walkChildren_cons_stop _ _ _ _ _ _ h] at he
          exact hchild he
    rcases Walk_cases z nf cf d (rootedPath segs) c s with
      ⟨e0, h⟩ | ⟨h, hs⟩ | ⟨h, hs, e0, hce⟩ | ⟨h, hs, hce⟩
    · rw [Walk_node_err z nf cf fuel d _ c s e0 h] at he
      exact Or.inl (path_mem_nodeEvents z d _ _ c e q he hq)
    · rw [Walk_skip z nf cf fuel d _ c s h hs] at he
      exact Or.inl (path_mem_nodeEvents z d _ _ c e q he hq)
    · rw [Walk_children_err z nf cf fuel d _ c s e0 h hs hce] at he
      rcases List.mem_append.1 he with he | he
      · exact Or.inl (path_mem_nodeEvents z d _ _ c e q he hq)
      · exact Or.inl (path_mem_listEvents d _ _ _ e q he hq)
    · rw [Walk_descend z nf cf fuel d _ c s h hs hce] at he
      simp only [List.mem_append] at he
      rcases he with (he | he) | he
      · exact Or.inl (path_mem_nodeEvents z d _ _ c e q he hq)
      · exact Or.inl (path_mem_listEvents d _ _ _ e q he hq)
      · exact Or.inr (hloop _ (hcf _ _ _ _ _) _ _ e he q hq)

/-- With valid names everywhere, neither a sibling that was not selected at `P` nor
any path below it is handed to the node processor or to `Children`. -/
theorem unselected_not_visited (z : ZkWalker σ) (nf : ZnodeProcessor τ)
    (cf : ChildrenProcessor τ)
    (hcf : ∀ p names st err s, ∀ ch ∈ (cf p names st err s).children, validName ch)
    (fuel d : Nat) (segs : List String) (c : σ) (s : τ) (hsegs : ∀ x ∈ segs, validName x)
    (b : String) (hb : validName b)
    (hsel : b ∉ (callChildrenFn z nf cf d (rootedPath segs) c s).children)
    (ns : List String) (hns : ∀ x ∈ ns, validName x) :
    rootedPath (segs ++ b :: ns) ∉ nodePaths (Walk z nf cf fuel d (rootedPath segs) c s).events ∧
    rootedPath (segs ++ b :: ns) ∉ lsPaths (Walk z nf cf fuel d (rootedPath segs) c s).events := by
  have hvalid : ∀ x ∈ segs ++ b :: ns, validName x := by
    intro x hx
    rcases List.mem_append.1 hx with hx | hx
    · exact hsegs x hx
    · rcases List.mem_cons.1 hx with rfl | hx
      · exact hb
      · exact hns x hx
  have key : ∀ e ∈ (Walk z nf cf fuel d (rootedPath segs) c s).events,
      (e.call = .walk (rootedPath (segs ++ b :: ns)) ∨
        e.call = .znodeFn (rootedPath (segs ++ b :: ns)) ∨
        e.call = .ls (rootedPath (segs ++ b :: ns))) → False := by
    intro e he hq
    rcases Walk_paths_selected z nf cf hcf fuel d segs c s hsegs e he _ hq with
      h | ⟨ch, ns2, h1, h2, h3, h4⟩
    · have := rootedPath_inj _ _ hvalid hsegs h
      have hl := congrArg List.length this
      simp at hl
    · have hvalid2 : ∀ x ∈ segs ++ ch :: ns2, validName x := by
        intro x hx
        rcases List.mem_append.1 hx with hx | hx
        · exact hsegs x hx
        · rcases List.mem_cons.1 hx with rfl | hx
          · exact h2
          · exact h3 x hx
      have := rootedPath_inj _ _ hvalid hvalid2 h4
      have h5 := List.append_cancel_left this
      simp only [List.cons.injEq] at h5
      exact hsel (h5.1 ▸ h1)
  constructor
  · intro hmem
    simp only [nodePaths, List.mem_filterMap] at hmem
    obtain ⟨e, he, hq⟩ := hmem
    refine key e he (Or.inr (Or.inl ?_))
    cases hc : e.call <;> simp [hc] at hq
    rw [hq]
  · intro hmem
    simp only [lsPaths, List.mem_filterMap] at hmem
    obtain ⟨e, he, hq⟩ := hmem
    refine key e he (Or.inr (Or.inr ?_))
    cases hc : e.call <;> simp [hc] at hq
    rw [hq]

theorem selectOnly_valid (table : List (String × List String))
    (h : ∀ entry ∈ table, ∀ ch ∈ entry.2, validName ch) :
    ∀ (p : String) (names : List String) (st : Stat) (err : Option Err) (s : τ),
      ∀ ch ∈ (selectOnly table p names st err s).children, validName ch := by
  intro p names st err s
  simp only [selectOnly]
  induction table with
  | nil => intro ch hch; simp [List.lookup] at hch
  | cons entry tl ih =>
    obtain ⟨k, v⟩ := entry
    intro ch hch
    simp only [List.lookup] at hch
    split at hch
    · exact h (k, v) (by simp) ch (by simpa using hch)
    · exact ih (fun en hen => h en (by simp [hen])) ch hch

/-- C5, as amended. For every client and every path `P` whose node processor
returns `(false, nil)`: the frames one level below `P` are entered with
`path.Join(P, c)` for the names `c` of a prefix of what the children processor
returned at `P`, in that order, and with nothing else; with all of them when
`Walk(P)` returns nil; the trace of `Walk(P)` is the frame of `P` followed by the
traces of walks of those children, one after the other. When the children
processor returns the empty selection at `P`, the node processor is called once,
at `P`, and the only `Children` call is the one for `P`. And when `P` is an
absolute path in cleaned form and the children processor only ever returns valid
names, a sibling `b` that it did not return at `P` is never visited, nor is
anything below it: neither `path.Join(P, b)` nor that path with further valid
names appended is handed to the node processor or to `Children`. -/
theorem Walk_descends_into_selection (z : ZkWalker σ) (nf : ZnodeProcessor τ)
    (cf : ChildrenProcessor τ) (fuel d : Nat) (P : String) (c : σ) (s : τ)
    (hskip : (runZnodeFn z d P (nf P s) c).skipChildren = false)
    (herr : (runZnodeFn z d P (nf P s) c).err = none) :
    walkPathsAt (d + 1) (Walk z nf cf (fuel + 1) d P c s).events <+:
      (callChildrenFn z nf cf d P c s).children.map (fun ch => Join [P, ch]) ∧
    ((Walk z nf cf (fuel + 1) d P c s).outcome = .returned none →
      walkPathsAt (d + 1) (Walk z nf cf (fuel + 1) d P c s).events =
        (callChildrenFn z nf cf d P c s).children.map (fun ch => Join [P, ch])) ∧
    (∃ runs : List (Run σ τ),
      (Walk z nf cf (fuel + 1) d P c s).events =
        eventsAt d (Walk z nf cf (fuel + 1) d P c s).events ++
          (runs.map Run.events).flatten ∧
      List.Forall₂ (fun ch r => ∃ c1 s1, r = Walk z nf cf fuel (d + 1) (Join [P, ch]) c1 s1)
        ((callChildrenFn z nf cf d P c s).children.take runs.length) runs) ∧
    ((callChildrenFn z nf cf d P c s).children = [] →
      nodePaths (Walk z nf cf (fuel + 1) d P c s).events = [P] ∧
      lsPaths (Walk z nf cf (fuel + 1) d P c s).events = [P]) ∧
    (∀ segs : List String, P = rootedPath segs → (∀ x ∈ segs, validName x) →
      (∀ p lsChildren lsStat lsErr s1, ∀ ch ∈ (cf p lsChildren lsStat lsErr s1).children,
        validName ch) →
      ∀ b, validName b → b ∉ (callChildrenFn z nf cf d P c s).children →
        Join [P, b] = rootedPath (segs ++ [b]) ∧
        ∀ ns : List String, (∀ x ∈ ns, validName x) →
          rootedPath (segs ++ b :: ns) ∉ nodePaths (Walk z nf cf (fuel + 1) d P c s).events ∧
          rootedPath (segs ++ b :: ns) ∉ lsPaths (Walk z nf cf (fuel + 1) d P c s).events) := by
  have hold : walkPathsAt (d + 1) (Walk z nf cf (fuel + 1) d P c s).events <+:
      (callChildrenFn z nf cf d P c s).children.map (fun ch => Join [P, ch]) ∧
    ((Walk z nf cf (fuel + 1) d P c s).outcome = .returned none →
      walkPathsAt (d + 1) (Walk z nf cf (fuel + 1) d P c s).events =
        (callChildrenFn z nf cf d P c s).children.map (fun ch => Join [P, ch])) ∧
    (∃ runs : List (Run σ τ),
      (Walk z nf cf (fuel + 1) d P c s).events =
        eventsAt d (Walk z nf cf (fuel + 1) d P c s).events ++
          (runs.map Run.events).flatten ∧
      List.Forall₂ (fun ch r => ∃ c1 s1, r = Walk z nf cf fuel (d + 1) (Join [P, ch]) c1 s1)
        ((callChildrenFn z nf cf d P c s).children.take runs.length) runs) ∧
    ((callChildrenFn z nf cf d P c s).children = [] →
      nodePaths (Walk z nf cf (fuel + 1) d P c s).events = [P] ∧
      lsPaths (Walk z nf cf (fuel + 1) d P c s).events = [P]) := by
    have hframe := eventsAt_Walk_frame z nf cf fuel d P c s herr hskip
    have hnode : walkPathsAt (d + 1) (nodeEvents d P (callZnodeFn z nf d P c s)) = [] :=
      walkPathsAt_deeper_frame d P z (nf P s) c
    cases hce : (callChildrenFn z nf cf d P c s).err with
    | some e0 =>
      have hW := Walk_children_err z nf cf fuel d P c s e0 herr hskip hce
      refine ⟨?_, ?_, ⟨[], ?_, ?_⟩, ?_⟩
      · rw [hW]
        simp only [walkPathsAt_append, hnode, walkPathsAt_listEvents, List.append_nil]
        exact List.nil_prefix
      · intro ho; rw [hW] at ho; cases ho
      · rw [hframe, hW]; simp
      · simp
      · intro _
        rw [hW]
        simp only [nodePaths, lsPaths, List.filterMap_append]
        have h1 := nodePaths_nodeEvents z d P (nf P s) c
        have h2 := lsPaths_nodeEvents z d P (nf P s) c
        have h3 := nodePaths_listEvents d P (callChildren z nf d P c s).1
          (callChildrenFn z nf cf d P c s)
        have h4 := lsPaths_listEvents d P (callChildren z nf d P c s).1
          (callChildrenFn z nf cf d P c s)
        simp only [nodePaths, lsPaths] at h1 h2 h3 h4
        simp only [callZnodeFn]
        rw [h1, h2, h3, h4]
        exact ⟨rfl, rfl⟩
    | none =>
      have hW := Walk_descend z nf cf fuel d P c s herr hskip hce
      obtain ⟨hpre, hall⟩ := walkChildren_walkPathsAt z nf cf fuel (d + 1) P
        (callChildrenFn z nf cf d P c s).children (callChildren z nf d P c s).2
        (callChildrenFn z nf cf d P c s).s
      have hpaths : walkPathsAt (d + 1) (Walk z nf cf (fuel + 1) d P c s).events =
          walkPathsAt (d + 1) (callWalkChildren z nf cf fuel d P c s).events := by
        rw [hW]
        simp only [walkPathsAt_append, hnode, walkPathsAt_listEvents, List.nil_append]
      refine ⟨?_, ?_, ?_, ?_⟩
      · rw [hpaths]; exact hpre
      · intro ho
        rw [hpaths]
        apply hall
        rw [hW] at ho
        exact ho
      · obtain ⟨runs, hev, hruns⟩ := walkChildren_runs (Walk z nf cf fuel (d + 1)) P
          (callChildrenFn z nf cf d P c s).children (callChildren z nf d P c s).2
          (callChildrenFn z nf cf d P c s).s
        refine ⟨runs, ?_, hruns⟩
        rw [hframe, hW]
        simp only [callWalkChildren]
        rw [hev]
      · intro hnil
        rw [hW]
        simp only [callWalkChildren, hnil, walkChildren]
        simp only [nodePaths, lsPaths, List.filterMap_append]
        have h1 := nodePaths_nodeEvents z d P (nf P s) c
        have h2 := lsPaths_nodeEvents z d P (nf P s) c
        have h3 := nodePaths_listEvents d P (callChildren z nf d P c s).1
          (callChildrenFn z nf cf d P c s)
        have h4 := lsPaths_listEvents d P (callChildren z nf d P c s).1
          (callChildrenFn z nf cf d P c s)
        simp only [nodePaths, lsPaths] at h1 h2 h3 h4
        simp only [callZnodeFn]
        rw [h1, h2, h3, h4]
        exact ⟨rfl, rfl⟩
  refine ⟨hold.1, hold.2.1, hold.2.2.1, hold.2.2.2, ?_⟩
  intro segs hP hsegs hcf b hb hsel
  subst hP
  refine ⟨Join_rootedPath segs b hsegs hb, ?_⟩
  intro ns hns
  exact unselected_not_visited z nf cf hcf (fuel + 1) d segs c s hsegs b hb hsel ns hns

/-- Two inputs on the tree with two leaves. First, a node processor that fails at
`/a`: the node processor at `/` returns `(false, nil)`, the children processor
returns `a` and `b` with a nil error, and the only frame entered below `/` is that
of `/a`, not those of `/a` and `/b`. Second, a children processor that returns
`a` alone at `/`, where `a` and `b` are listed, and `../b` at `/a`:
`path.Join("/a", "../b")` is `/b`, so the sibling `/b`, which was not selected, is
handed to the node processor and to `Children` all the same. -/
theorem selection_neither_exact_nor_closed :
    ((runZnodeFn memWalker 0 "/" (failAt "/a" "/" ()) twoLeaves).skipChildren = false ∧
      (runZnodeFn memWalker 0 "/" (failAt "/a" "/" ()) twoLeaves).err = none ∧
      (callChildrenFn memWalker (failAt "/a") AllChildren 0 "/" twoLeaves ()).children =
        ["a", "b"] ∧
      (callChildrenFn memWalker (failAt "/a") AllChildren 0 "/" twoLeaves ()).err = none ∧
      ["a", "b"].map (fun ch => Join ["/", ch]) = ["/a", "/b"] ∧
      walkPathsAt 1 (Walk memWalker (failAt "/a") AllChildren 5 0 "/" twoLeaves ()).events =
        ["/a"] ∧
      nodePaths (Walk memWalker (failAt "/a") AllChildren 5 0 "/" twoLeaves ()).events =
        ["/", "/a"] ∧
      (Walk memWalker (failAt "/a") AllChildren 5 0 "/" twoLeaves ()).outcome =
        .returned (some "boom")) ∧
    ((runZnodeFn memWalker 0 "/" ((noopZnodeProcessor : ZnodeProcessor Unit) "/" ())
        twoLeaves).skipChildren = false ∧
      (runZnodeFn memWalker 0 "/" ((noopZnodeProcessor : ZnodeProcessor Unit) "/" ())
        twoLeaves).err = none ∧
      (callChildren memWalker (noopZnodeProcessor : ZnodeProcessor Unit) 0 "/" twoLeaves
        ()).1.1 = ["a", "b"] ∧
      (callChildrenFn memWalker (noopZnodeProcessor : ZnodeProcessor Unit)
        (selectOnly [("/", ["a"]), ("/a", ["../b"])]) 0 "/" twoLeaves ()).children = ["a"] ∧
      Join ["/", "b"] = "/b" ∧ Join ["/a", "../b"] = "/b" ∧
      nodePaths (Walk memWalker (noopZnodeProcessor : ZnodeProcessor Unit)
        (selectOnly [("/", ["a"]), ("/a", ["../b"])]) 5 0 "/" twoLeaves ()).events =
        ["/", "/a", "/b"] ∧
      lsPaths (Walk memWalker (noopZnodeProcessor : ZnodeProcessor Unit)
        (selectOnly [("/", ["a"]), ("/a", ["../b"])]) 5 0 "/" twoLeaves ()).events =
        ["/", "/a", "/b"] ∧
      (Walk memWalker (noopZnodeProcessor : ZnodeProcessor Unit)
        (selectOnly [("/", ["a"]), ("/a", ["../b"])]) 5 0 "/" twoLeaves ()).outcome =
        .returned none) := by
  decide

/-- Third test case: the chain with a children processor that selects nothing. And
the tree of the first test case walked from `/foo` with `bar` alone selected there:
neither `/foo/baz` nor `/foo/baz/xxx` is visited. -/
theorem Walk_descends_into_selection_witness :
    (nodePaths (Walk memWalker getZnodeProcessor noChildren 5 0 "/" chain4 ()).events = ["/"] ∧
      lsPaths (Walk memWalker getZnodeProcessor noChildren 5 0 "/" chain4 ()).events = ["/"]) ∧
    (Walk memWalker getZnodeProcessor noChildren 5 0 "/" chain4 ()).conn.visitedLs = ["/"] ∧
    (Walk memWalker getZnodeProcessor noChildren 5 0 "/" chain4 ()).conn.visitedGet = ["/"] ∧
    walkPathsAt 1 (Walk memWalker noopZnodeProcessor AllChildren 5 0 "/foo" tree8 ()).events =
      ["/foo/bar", "/foo/baz"] ∧
    (rootedPath (["foo"] ++ "baz" :: ["xxx"]) ∉
        nodePaths (Walk memWalker (noopZnodeProcessor : ZnodeProcessor Unit)
          (selectOnly [("/foo", ["bar"]), ("/foo/bar", ["aaa", "bbb"])]) (4 + 1) 0 "/foo" tree8
          ()).events ∧
      rootedPath (["foo"] ++ "baz" :: ["xxx"]) ∉
        lsPaths (Walk memWalker (noopZnodeProcessor : ZnodeProcessor Unit)
          (selectOnly [("/foo", ["bar"]), ("/foo/bar", ["aaa", "bbb"])]) (4 + 1) 0 "/foo" tree8
          ()).events) ∧
    rootedPath (["foo"] ++ "baz" :: ["xxx"]) = "/foo/baz/xxx" ∧
    nodePaths (Walk memWalker (noopZnodeProcessor : ZnodeProcessor Unit)
      (selectOnly [("/foo", ["bar"]), ("/foo/bar", ["aaa", "bbb"])]) 5 0 "/foo" tree8
      ()).events = ["/foo", "/foo/bar", "/foo/bar/aaa", "/foo/bar/bbb"] :=
  ⟨(Walk_descends_into_selection memWalker getZnodeProcessor noChildren 4 0 "/" chain4 ()
      rfl rfl).2.2.2.1 rfl, by decide, by decide, by decide,
    ((Walk_descends_into_selection memWalker (noopZnodeProcessor : ZnodeProcessor Unit)
      (selectOnly [("/foo", ["bar"]), ("/foo/bar", ["aaa", "bbb"])]) 4 0 "/foo" tree8 ()
      rfl rfl).2.2.2.2 ["foo"] (by decide) (by decide)
      (selectOnly_valid _ (by decide)) "baz" (by decide) (by decide)).2 ["xxx"] (by decide),
    by decide, by decide⟩

end selection

end zkwalker
